import Mathlib

/-!
Shallow embedding of the VeloTrek core ("Track Geometry & Offline Tile Cache"):
the KML track parser (src/js/kml-parser.js), the GPS nearest-point locator and
the offline tile manager (GPSTracker / OfflineTiles modules).

Modelling conventions:
* JS numbers are modelled by real numbers; `Math.round x` is `⌊x + 1/2⌋`.
* A parsed document is modelled after DOM extraction: a list of placemarks,
  each carrying its (already numeric) geometry, mirroring the classification
  `Point` / `MultiGeometry` / `LineString` done by `parse`.
* A track point is the JS array `[lat, lon, ele]`, modelled as a triple.
* `Infinity` sentinels (`minDist`, `minEle`) are modelled by `⊤ : EReal`
  resp. an `Option ℝ` that is `none` until the first update.
* The JS `Set` of tile keys is modelled as a duplicate-free insertion-ordered
  list; the string key "z/x/y" is in bijection with the triple `(z, x, y)`.
* The download orchestrator's workers mutate the shared queue, the counters
  and the progress stream one atomic step at a time (single-threaded JS);
  the aggregate counters and the emitted phases are the same for every
  interleaving, so the model executes the attempts sequentially, reading a
  cancellation schedule `aborted : ℕ → Bool` at each poll point exactly where
  the source reads `signal.aborted`.
-/

open Real

set_option maxHeartbeats 1000000

/-- A track point as stored by the parser: the JS array `[lat, lon, ele]`. -/
abbrev P3 : Type := ℝ × ℝ × ℝ

/-- A point of interest `{lon, lat, elevation}` (name/description carry no
geometry and are omitted). -/
structure POI where
  lat : ℝ
  lon : ℝ
  elevation : ℝ

/-- Bounding box `{minLat, maxLat, minLon, maxLon}`. -/
structure BBox where
  minLat : ℝ
  maxLat : ℝ
  minLon : ℝ
  maxLon : ℝ

/-- The degenerate initial bbox `{90, -90, 180, -180}`. -/
def initBBox : BBox := ⟨90, -90, 180, -180⟩

/-- `updateBBox` of kml-parser.js. -/
noncomputable def updateBBox (b : BBox) (lat lon : ℝ) : BBox :=
  { minLat := if lat < b.minLat then lat else b.minLat
    maxLat := if lat > b.maxLat then lat else b.maxLat
    minLon := if lon < b.minLon then lon else b.minLon
    maxLon := if lon > b.maxLon then lon else b.maxLon }

/-- JS `Math.round`: round half towards positive infinity. -/
noncomputable def jround (x : ℝ) : ℤ := ⌊x + 1 / 2⌋

/-- JS `Math.round(x * 10) / 10`: round to one decimal place. -/
noncomputable def jround10 (x : ℝ) : ℝ := (jround (x * 10) : ℝ) / 10

/-- `haversineKm` of kml-parser.js (Earth radius 6371 km). -/
noncomputable def haversineKm (lat1 lon1 lat2 lon2 : ℝ) : ℝ :=
  let R : ℝ := 6371
  let dLat := (lat2 - lat1) * π / 180
  let dLon := (lon2 - lon1) * π / 180
  let a := Real.sin (dLat / 2) * Real.sin (dLat / 2) +
    Real.cos (lat1 * π / 180) * Real.cos (lat2 * π / 180) *
    Real.sin (dLon / 2) * Real.sin (dLon / 2)
  R * 2 * Real.arcsin (Real.sqrt a)

/-- Moving-average window size of `calcElevationStats`. -/
def WINDOW : ℕ := 5

/-- Half-width `Math.floor(WINDOW / 2)`. -/
def HALF : ℕ := WINDOW / 2

/-- The smoothed elevation sequence: centered moving average, window clamped at
the sequence boundaries (`s = max 0 (i - HALF)`, `e = min (len - 1) (i + HALF)`).
Natural subtraction renders the clamping at 0. -/
noncomputable def smoothedList (eles : List ℝ) : List ℝ :=
  (List.range eles.length).map fun i =>
    let s := i - HALF
    let e := min (eles.length - 1) (i + HALF)
    (∑ j ∈ Finset.Icc s e, eles.getD j 0) / ((e - s + 1 : ℕ) : ℝ)

/-- Accumulator of `calcElevationStats`; `minEle`/`maxEle` start at the JS
sentinels `Infinity`/`-Infinity`, modelled by `none`. -/
structure ElevAcc where
  climb : ℝ
  descent : ℝ
  minEle : Option ℝ
  maxEle : Option ℝ
  hasEle : Bool

/-- `if (e < minEle) minEle = e` with `minEle` starting at `Infinity`. -/
noncomputable def updMin (m : Option ℝ) (e : ℝ) : Option ℝ :=
  match m with
  | none => some e
  | some v => if e < v then some e else some v

/-- `if (e > maxEle) maxEle = e` with `maxEle` starting at `-Infinity`. -/
noncomputable def updMax (m : Option ℝ) (e : ℝ) : Option ℝ :=
  match m with
  | none => some e
  | some v => if e > v then some e else some v

/-- One climb/descent accumulation step over a consecutive pair of smoothed
values: `diff > 0` adds to climb, otherwise `-diff` adds to descent. -/
noncomputable def diffStep (cd : ℝ × ℝ) (pq : ℝ × ℝ) : ℝ × ℝ :=
  let diff := pq.2 - pq.1
  if diff > 0 then (cd.1 + diff, cd.2) else (cd.1, cd.2 - diff)

/-- The elevation sequence of a segment restricted to its non-zero entries
(the JS truthiness filter `e => e`). -/
noncomputable def nonZeroEles (seg : List P3) : List ℝ :=
  (seg.map fun p => p.2.2).filter fun e => decide (e ≠ 0)

/-- Processing of one segment inside `calcElevationStats`: keep the non-zero
elevations (JS truthiness filter `e => e`), skip the segment when fewer than
two remain, otherwise update raw min/max and accumulate smoothed deltas. -/
noncomputable def segElevStep (acc : ElevAcc) (seg : List P3) : ElevAcc :=
  let eles := nonZeroEles seg
  if eles.length < 2 then acc
  else
    let mn := eles.foldl updMin acc.minEle
    let mx := eles.foldl updMax acc.maxEle
    let sm := smoothedList eles
    let cd := (sm.zip sm.tail).foldl diffStep (acc.climb, acc.descent)
    ⟨cd.1, cd.2, mn, mx, true⟩

/-- The four elevation keys produced by `calcElevationStats`; a `none` field is
an absent key. -/
structure ElevStats where
  elevation_min_m : Option ℤ := none
  elevation_max_m : Option ℤ := none
  climb_m : Option ℤ := none
  descent_m : Option ℤ := none

/-- `calcElevationStats` of kml-parser.js. -/
noncomputable def calcElevationStats (segments : List (List P3)) : ElevStats :=
  let a := segments.foldl segElevStep ⟨0, 0, none, none, false⟩
  if a.hasEle then
    { elevation_min_m := a.minEle.map jround
      elevation_max_m := a.maxEle.map jround
      climb_m := some (jround a.climb)
      descent_m := some (jround a.descent) }
  else {}

/-- The sparse `stats` mapping; a `none` field is an absent key. -/
structure Stats where
  track_km : Option ℝ := none
  span_km : Option ℝ := none
  elevation_min_m : Option ℤ := none
  elevation_max_m : Option ℤ := none
  climb_m : Option ℤ := none
  descent_m : Option ℤ := none

/-- The parsed route. -/
structure Route where
  pois : List POI
  segments : List (List P3)
  bbox : BBox
  stats : Stats

/-- A placemark after DOM extraction.  `point = some pp` models a `Point`
child being present with `pp` the result of `parsePoint` (`none` = rejected);
`multiGeo` models a `MultiGeometry` child with its `LineString` coordinate
lists; `lineString` a lone `LineString`.  `parse` probes them in this order. -/
structure Placemark where
  point : Option (Option POI) := none
  multiGeo : Option (List (List P3)) := none
  lineString : Option (List P3) := none

/-- Accumulated state of the placemark loop in `parse`. -/
structure ParseAcc where
  pois : List POI
  segments : List (List P3)
  bbox : BBox

/-- Fold `updateBBox` over every point of a segment. -/
noncomputable def bboxAddSeg (b : BBox) (seg : List P3) : BBox :=
  seg.foldl (fun b2 p => updateBBox b2 p.1 p.2.1) b

/-- `if (segment.length > 0) { result.segments.push(segment); update bbox }`. -/
noncomputable def pushSeg (acc : ParseAcc) (seg : List P3) : ParseAcc :=
  match seg with
  | [] => acc
  | _ => ⟨acc.pois, acc.segments ++ [seg], bboxAddSeg acc.bbox seg⟩

/-- The body of the placemark loop in `parse`: a `Point` beats a
`MultiGeometry` beats a lone `LineString`. -/
noncomputable def processPlacemark (acc : ParseAcc) (pm : Placemark) : ParseAcc :=
  match pm.point with
  | some pp =>
    match pp with
    | some poi => ⟨acc.pois ++ [poi], acc.segments, updateBBox acc.bbox poi.lat poi.lon⟩
    | none => acc
  | none =>
    match pm.multiGeo with
    | some lss => lss.foldl pushSeg acc
    | none =>
      match pm.lineString with
      | some ls => pushSeg acc ls
      | none => acc

/-- `parse` of kml-parser.js, from the classified placemark list to the Route. -/
noncomputable def parse (doc : List Placemark) : Route :=
  let acc := doc.foldl processPlacemark ⟨[], [], initBBox⟩
  let trackKm := acc.segments.foldl
    (fun t seg => (seg.zip seg.tail).foldl
      (fun t2 pq => t2 + haversineKm pq.1.1 pq.1.2.1 pq.2.1 pq.2.2.1) t) 0
  let e := calcElevationStats acc.segments
  let stats : Stats :=
    { track_km := if 0 < trackKm then some (jround10 trackKm) else none
      span_km :=
        if acc.bbox.minLat < 90 then
          let dlatKm := (acc.bbox.maxLat - acc.bbox.minLat) * 111.32
          let midLat := (acc.bbox.maxLat + acc.bbox.minLat) / 2
          let dlonKm := (acc.bbox.maxLon - acc.bbox.minLon) * 111.32 * Real.cos (midLat * π / 180)
          some (jround10 (Real.sqrt (dlatKm * dlatKm + dlonKm * dlonKm)))
        else none
      elevation_min_m := e.elevation_min_m
      elevation_max_m := e.elevation_max_m
      climb_m := e.climb_m
      descent_m := e.descent_m }
  ⟨acc.pois, acc.segments, acc.bbox, stats⟩

/-- The `(lat, lon)` pairs a placemark contributes to the bbox. -/
def pmPoints (pm : Placemark) : List (ℝ × ℝ) :=
  match pm.point with
  | some pp =>
    match pp with
    | some poi => [(poi.lat, poi.lon)]
    | none => []
  | none =>
    match pm.multiGeo with
    | some lss => (lss.map fun ls => ls.map fun p => (p.1, p.2.1)).flatten
    | none =>
      match pm.lineString with
      | some ls => ls.map fun p => (p.1, p.2.1)
      | none => []

/-- All `(lat, lon)` pairs observed while parsing a document. -/
def docPoints (doc : List Placemark) : List (ℝ × ℝ) :=
  (doc.map pmPoints).flatten

/-- The spec-side per-segment track length: the sum of the haversine distances
between consecutive points of the segment. -/
noncomputable def segHaversineSum (seg : List P3) : ℝ :=
  ((seg.zip seg.tail).map fun pq => haversineKm pq.1.1 pq.1.2.1 pq.2.1 pq.2.2.1).sum

/-- The spec-side total track length: `segHaversineSum` summed over segments. -/
noncomputable def totalTrackKm (segs : List (List P3)) : ℝ :=
  (segs.map segHaversineSum).sum

/-! ### GPS tracker (GPSTracker module) -/

/-- JS `Math.atan2`. -/
noncomputable def atan2 (y x : ℝ) : ℝ :=
  if 0 < x then Real.arctan (y / x)
  else if x < 0 then
    (if 0 ≤ y then Real.arctan (y / x) + π else Real.arctan (y / x) - π)
  else
    (if 0 < y then π / 2 else if y < 0 then -(π / 2) else 0)

/-- `haversine` of the GPS tracker (meters, Earth radius 6371000,
`atan2`-based). -/
noncomputable def haversine (lat1 lon1 lat2 lon2 : ℝ) : ℝ :=
  let R : ℝ := 6371000
  let dLat := (lat2 - lat1) * π / 180
  let dLon := (lon2 - lon1) * π / 180
  let a := Real.sin (dLat / 2) * Real.sin (dLat / 2) +
    Real.cos (lat1 * π / 180) * Real.cos (lat2 * π / 180) *
    Real.sin (dLon / 2) * Real.sin (dLon / 2)
  R * 2 * atan2 (Real.sqrt a) (Real.sqrt (1 - a))

/-- The indices visited by `for (let i = 0; i < len; i += step)`. -/
def strideIdxs (len step : ℕ) : List ℕ :=
  (List.range ((len + step - 1) / step)).map (· * step)

/-- The `{point, distance}` record returned by `findNearestPoint`;
`distance` starts at `Infinity`, hence `EReal`. -/
structure NearestResult where
  point : Option P3
  distance : EReal

/-- One candidate test of `findNearestPoint`: strict improvement updates both
the minimum distance and the best point. -/
noncomputable def scanStep (lat lon : ℝ) (pts : List P3) (st : EReal × Option P3)
    (i : ℕ) : EReal × Option P3 :=
  let p := pts.getD i (0, 0, 0)
  let d : EReal := ((haversine lat lon p.1 p.2.1 : ℝ) : EReal)
  if d < st.1 then (d, some p) else st

/-- `findNearestPoint` of the GPS tracker: coarse strided pass, then a refine
pass over `[idx - step, idx + step)` around the coarse winner. -/
noncomputable def findNearestPoint (pts : List P3) (lat lon : ℝ) : NearestResult :=
  let step := max 1 (pts.length / 1000)
  let st := (strideIdxs pts.length step).foldl (scanStep lat lon pts) (⊤, none)
  match st.2 with
  | none => ⟨none, st.1⟩
  | some p0 =>
    let idx := pts.indexOf p0
    let s := idx - step
    let e := min pts.length (idx + step)
    let st2 := ((List.range (e - s)).map (s + ·)).foldl (scanStep lat lon pts) st
    ⟨st2.2, st2.1⟩

/-- The derived `onRoute` flag computed in `onPosition`:
`nearest.distance < 100` meters. -/
noncomputable def onRouteFlag (pts : List P3) (lat lon : ℝ) : Prop :=
  (findNearestPoint pts lat lon).distance < ((100 : ℝ) : EReal)

/-! ### Offline tile manager (OfflineTiles module) -/

/-- A tile key `(z, x, y)`; the stored string form "z/x/y" is in bijection
with the triple. -/
abbrev TileKey : Type := ℤ × ℤ × ℤ

/-- `lon2tile` of OfflineTiles. -/
noncomputable def lon2tile (lon : ℝ) (zoom : ℕ) : ℤ :=
  ⌊(lon + 180) / 360 * 2 ^ zoom⌋

/-- `lat2tile` of OfflineTiles (slippy-map Mercator row). -/
noncomputable def lat2tile (lat : ℝ) (zoom : ℕ) : ℤ :=
  let latRad := lat * π / 180
  ⌊(1 - Real.log (Real.tan latRad + 1 / Real.cos latRad) / π) / 2 * 2 ^ zoom⌋

/-- The values visited by `for (let z = a; z <= b; z++)` over naturals. -/
def natRange (a b : ℕ) : List ℕ :=
  (List.range (b + 1 - a)).map (a + ·)

/-- The values visited by `for (let x = a; x <= b; x++)` over integers. -/
def intRange (a b : ℤ) : List ℤ :=
  (List.range (b + 1 - a).toNat).map fun k : ℕ => a + (k : ℤ)

/-- `Set.add` on the insertion-ordered duplicate-free key list. -/
def addKey (t : List TileKey) (k : TileKey) : List TileKey :=
  if k ∈ t then t else t ++ [k]

/-- The geometry of a route consumed by the tile index calculator. -/
structure RouteGeom where
  segments : List (List P3)
  bbox : BBox

/-- The keys enumerated by the low-zoom double loop: the full tile rectangle
of the bbox expanded by 0.01 degrees on each side. -/
noncomputable def rectKeys (b : BBox) (z : ℕ) : List TileKey :=
  let xMin := lon2tile (b.minLon - 0.01) z
  let xMax := lon2tile (b.maxLon + 0.01) z
  let yMin := lat2tile (b.maxLat + 0.01) z
  let yMax := lat2tile (b.minLat - 0.01) z
  (intRange xMin xMax).flatMap fun x => (intRange yMin yMax).map fun y => ((z : ℤ), x, y)

/-- The 3-by-3 block of keys around a center tile, in the order the nested
`dx`/`dy` loops visit them. -/
def blockKeys (z : ℕ) (cx cy : ℤ) : List TileKey :=
  (intRange (-1) 1).flatMap fun dx => (intRange (-1) 1).map fun dy => ((z : ℤ), cx + dx, cy + dy)

/-- The 3-by-3 block centered on the tile of a route point. -/
noncomputable def ptBlock (z : ℕ) (p : P3) : List TileKey :=
  blockKeys z (lon2tile p.2.1 z) (lat2tile p.1 z)

/-- High-zoom insertion guarded by the per-zoom seen set: state is
`(tiles, seenAtZoom)`. -/
def seenAdd (st : List TileKey × List TileKey) (k : TileKey) :
    List TileKey × List TileKey :=
  if k ∈ st.2 then st else (addKey st.1 k, st.2 ++ [k])

/-- Processing of one segment at one high zoom: strided corridor samples
through the seen set, then the unconditional block of the last point. -/
noncomputable def segHighStep (z : ℕ) (st : List TileKey × List TileKey)
    (seg : List P3) : List TileKey × List TileKey :=
  let step := max 1 (seg.length / 500)
  let st1 := (strideIdxs seg.length step).foldl
    (fun s i => (ptBlock z (seg.getD i (0, 0, 0))).foldl seenAdd s) st
  if 0 < seg.length then
    ((ptBlock z (seg.getD (seg.length - 1) (0, 0, 0))).foldl addKey st1.1, st1.2)
  else st1

/-- `getTilesForRoute` of OfflineTiles: low-zoom bbox rectangles for zooms up
to 13, high-zoom corridors from zoom 14 on. -/
noncomputable def getTilesForRoute (rd : RouteGeom) (zoomMin zoomMax : ℕ) :
    List TileKey :=
  let t1 := (natRange zoomMin (min 13 zoomMax)).foldl
    (fun t z => (rectKeys rd.bbox z).foldl addKey t) []
  (natRange (max 14 zoomMin) zoomMax).foldl
    (fun t z => (rd.segments.foldl (segHighStep z) (t, [])).1) t1

/-- A route consisting of a single point, with the bbox degenerate at it. -/
def singlePointRoute (lat lon ele : ℝ) : RouteGeom :=
  ⟨[[(lat, lon, ele)]], ⟨lat, lat, lon, lon⟩⟩

/-- Spec-side low-zoom membership: the claim's full bounding-box tile
rectangle at zoom `z` (bbox expanded by 0.01 degrees, slippy-map projected). -/
noncomputable def specLowZoom (b : BBox) (z : ℕ) (k : TileKey) : Prop :=
  k.1 = (z : ℤ) ∧
  lon2tile (b.minLon - 0.01) z ≤ k.2.1 ∧ k.2.1 ≤ lon2tile (b.maxLon + 0.01) z ∧
  lat2tile (b.maxLat + 0.01) z ≤ k.2.2 ∧ k.2.2 ≤ lat2tile (b.minLat - 0.01) z

/-- Spec-side high-zoom membership: the claim's 3-by-3 block centered on the
point's tile at zoom `z`. -/
noncomputable def specBlock (lat lon : ℝ) (z : ℕ) (k : TileKey) : Prop :=
  k.1 = (z : ℤ) ∧
  lon2tile lon z - 1 ≤ k.2.1 ∧ k.2.1 ≤ lon2tile lon z + 1 ∧
  lat2tile lat z - 1 ≤ k.2.2 ∧ k.2.2 ≤ lat2tile lat z + 1

/-! ### Download orchestrator (downloadTiles) -/

/-- The `phase` field of a progress event. -/
inductive Phase where
  | checking
  | downloading
  | done
  deriving DecidableEq

/-- One `onProgress` snapshot; `cancelled = none` models an absent field. -/
structure ProgressEvent where
  phase : Phase
  total : ℕ
  completed : ℕ
  failed : ℕ
  cached : ℕ
  cancelled : Option Bool := none

/-- The record returned by `downloadTiles`. -/
structure DLResult where
  total : ℕ
  completed : ℕ
  failed : ℕ
  cached : ℕ
  cancelled : Bool

/-- The checking loop: for each key, poll `signal.aborted` (at poll time `t`),
then probe the store; `inl cached` is the early cancelled return, `inr`
carries the cached count and the download queue. -/
def checkTiles {κ : Type} (aborted : ℕ → Bool) (isCached : κ → Bool) :
    List κ → ℕ → ℕ → List κ → ℕ ⊕ (ℕ × List κ)
  | [], _, cached, toDL => .inr (cached, toDL)
  | k :: ks, t, cached, toDL =>
    if aborted t then .inl cached
    else if isCached k then checkTiles aborted isCached ks (t + 1) (cached + 1) toDL
    else checkTiles aborted isCached ks (t + 1) cached (toDL ++ [k])

/-- State of the download phase: counters, the poll clock and the emitted
progress events. -/
structure WorkState where
  completed : ℕ
  failed : ℕ
  t : ℕ
  events : List ProgressEvent

/-- The worker loop over the shared queue: poll the cancellation token before
each dequeue, attempt the fetch, bump exactly one counter, emit a
`downloading` snapshot after every attempt. -/
def workLoop {κ : Type} (aborted : ℕ → Bool) (fetchOk : κ → Bool)
    (qTotal cached : ℕ) : List κ → WorkState → WorkState
  | [], w => w
  | k :: ks, w =>
    if aborted w.t then w
    else
      let c2 := if fetchOk k then w.completed + 1 else w.completed
      let f2 := if fetchOk k then w.failed else w.failed + 1
      workLoop aborted fetchOk qTotal cached ks
        ⟨c2, f2, w.t + 1, w.events ++ [⟨Phase.downloading, qTotal, c2, f2, cached, none⟩]⟩

/-- `downloadTiles` below the tile-set computation: checking phase, empty
queue shortcut, worker processing, final done snapshot and result. -/
def downloadTilesFromKeys {κ : Type} (allKeys : List κ)
    (isCached fetchOk : κ → Bool) (aborted : ℕ → Bool) :
    List ProgressEvent × DLResult :=
  let ev0 : ProgressEvent := ⟨Phase.checking, allKeys.length, 0, 0, 0, none⟩
  match checkTiles aborted isCached allKeys 0 0 [] with
  | .inl cached => ([ev0], ⟨allKeys.length, 0, 0, cached, true⟩)
  | .inr (cached, toDL) =>
    let qTotal := toDL.length
    let ev1 : ProgressEvent := ⟨Phase.downloading, qTotal, 0, 0, cached, none⟩
    match toDL with
    | [] =>
      ([ev0, ev1, ⟨Phase.done, 0, 0, 0, cached, none⟩],
        ⟨allKeys.length, 0, 0, cached, false⟩)
    | q =>
      let w := workLoop aborted fetchOk qTotal cached q ⟨0, 0, allKeys.length, []⟩
      let cancelled := aborted w.t
      ([ev0, ev1] ++ w.events ++
          [⟨Phase.done, qTotal, w.completed, w.failed, cached, some cancelled⟩],
        ⟨allKeys.length, w.completed, w.failed, cached, cancelled⟩)

/-- `downloadTiles` of OfflineTiles: compute the tile set of the route, then
run the check/download phases.  The URL template and blob plumbing are
abstracted into the per-key fetch outcome `fetchOk`. -/
noncomputable def downloadTiles (rd : RouteGeom) (zoomMin zoomMax : ℕ)
    (isCached fetchOk : TileKey → Bool) (aborted : ℕ → Bool) :
    List ProgressEvent × DLResult :=
  downloadTilesFromKeys (getTilesForRoute rd zoomMin zoomMax) isCached fetchOk aborted

/-- Number of `done` progress events in a run. -/
def doneCount (evs : List ProgressEvent) : ℕ :=
  evs.countP fun e => decide (e.phase = Phase.done)

/-- Whether the checking phase hits a cancellation poll and returns early. -/
def checkingAborted {κ : Type} (allKeys : List κ) (isCached : κ → Bool)
    (aborted : ℕ → Bool) : Bool :=
  match checkTiles aborted isCached allKeys 0 0 [] with
  | .inl _ => true
  | .inr _ => false

/-- A cancellation schedule is monotone: once aborted, always aborted. -/
def MonoAborted (aborted : ℕ → Bool) : Prop :=
  ∀ i j : ℕ, i ≤ j → aborted i = true → aborted j = true

/-! ### Bounding-box fold lemmas -/

theorem updateBBox_eq (b : BBox) (la lo : ℝ) :
    updateBBox b la lo =
      ⟨min b.minLat la, max b.maxLat la, min b.minLon lo, max b.maxLon lo⟩ := by
  unfold updateBBox
  have h1 : (if la < b.minLat then la else b.minLat) = min b.minLat la := by
    rcases lt_or_le la b.minLat with h | h
    · rw [if_pos h, min_eq_right h.le]
    · rw [if_neg (not_lt.2 h), min_eq_left h]
  have h2 : (if la > b.maxLat then la else b.maxLat) = max b.maxLat la := by
    rcases le_or_lt la b.maxLat with h | h
    · rw [if_neg (not_lt.2 h), max_eq_left h]
    · rw [if_pos h, max_eq_right h.le]
  have h3 : (if lo < b.minLon then lo else b.minLon) = min b.minLon lo := by
    rcases lt_or_le lo b.minLon with h | h
    · rw [if_pos h, min_eq_right h.le]
    · rw [if_neg (not_lt.2 h), min_eq_left h]
  have h4 : (if lo > b.maxLon then lo else b.maxLon) = max b.maxLon lo := by
    rcases le_or_lt lo b.maxLon with h | h
    · rw [if_neg (not_lt.2 h), max_eq_left h]
    · rw [if_pos h, max_eq_right h.le]
  rw [h1, h2, h3, h4]

theorem bboxAddPts_eq (pts : List (ℝ × ℝ)) (b : BBox) :
    pts.foldl (fun bb p => updateBBox bb p.1 p.2) b =
      ⟨(pts.map Prod.fst).foldl min b.minLat, (pts.map Prod.fst).foldl max b.maxLat,
       (pts.map Prod.snd).foldl min b.minLon, (pts.map Prod.snd).foldl max b.maxLon⟩ := by
  induction pts generalizing b with
  | nil => rfl
  | cons p t ih =>
    simp only [List.foldl_cons, List.map_cons]
    rw [ih, updateBBox_eq]

theorem foldl_min_le_init (l : List ℝ) (a : ℝ) : l.foldl min a ≤ a := by
  induction l generalizing a with
  | nil => simp
  | cons x t ih => exact (ih (min a x)).trans (min_le_left a x)

theorem foldl_min_le_mem (l : List ℝ) (a x : ℝ) (hx : x ∈ l) : l.foldl min a ≤ x := by
  induction l generalizing a with
  | nil => cases hx
  | cons y t ih =>
    rcases List.mem_cons.1 hx with rfl | hmem
    · exact (foldl_min_le_init t (min a x)).trans (min_le_right a x)
    · exact ih (min a y) hmem

theorem foldl_min_lt_iff (l : List ℝ) (a c : ℝ) :
    l.foldl min a < c ↔ a < c ∨ ∃ x ∈ l, x < c := by
  induction l generalizing a with
  | nil => simp
  | cons x t ih =>
    simp only [List.foldl_cons, ih, min_lt_iff, List.mem_cons]
    constructor
    · rintro (( h | h) | ⟨y, hy, h⟩)
      · exact Or.inl h
      · exact Or.inr ⟨x, Or.inl rfl, h⟩
      · exact Or.inr ⟨y, Or.inr hy, h⟩
    · rintro (h | ⟨y, (rfl | hy), h⟩)
      · exact Or.inl (Or.inl h)
      · exact Or.inl (Or.inr h)
      · exact Or.inr ⟨y, hy, h⟩

theorem le_foldl_max_init (l : List ℝ) (a : ℝ) : a ≤ l.foldl max a := by
  induction l generalizing a with
  | nil => simp
  | cons x t ih => exact (le_max_left a x).trans (ih (max a x))

theorem le_foldl_max_mem (l : List ℝ) (a x : ℝ) (hx : x ∈ l) : x ≤ l.foldl max a := by
  induction l generalizing a with
  | nil => cases hx
  | cons y t ih =>
    rcases List.mem_cons.1 hx with rfl | hmem
    · exact (le_max_right a x).trans (le_foldl_max_init t (max a x))
    · exact ih (max a y) hmem

/-! ### Parser structure lemmas -/

theorem docPoints_cons (pm : Placemark) (t : List Placemark) :
    docPoints (pm :: t) = pmPoints pm ++ docPoints t := by
  simp [docPoints]

theorem pushSeg_bbox (acc : ParseAcc) (seg : List P3) :
    (pushSeg acc seg).bbox =
      (seg.map fun p => (p.1, p.2.1)).foldl (fun bb p => updateBBox bb p.1 p.2) acc.bbox := by
  cases seg with
  | nil => rfl
  | cons p t =>
    simp only [pushSeg, bboxAddSeg, List.foldl_map]

theorem foldl_pushSeg_bbox (lss : List (List P3)) (acc : ParseAcc) :
    (lss.foldl pushSeg acc).bbox =
      ((lss.map fun ls => ls.map fun p => (p.1, p.2.1)).flatten).foldl
        (fun bb p => updateBBox bb p.1 p.2) acc.bbox := by
  induction lss generalizing acc with
  | nil => rfl
  | cons ls t ih =>
    simp only [List.foldl_cons, List.map_cons, List.flatten_cons, List.foldl_append]
    rw [ih, pushSeg_bbox]

theorem processPlacemark_bbox (acc : ParseAcc) (pm : Placemark) :
    (processPlacemark acc pm).bbox =
      (pmPoints pm).foldl (fun bb p => updateBBox bb p.1 p.2) acc.bbox := by
  unfold processPlacemark pmPoints
  rcases pm with ⟨pt, mg, ls⟩
  cases pt with
  | some pp =>
    cases pp with
    | some poi => rfl
    | none => rfl
  | none =>
    cases mg with
    | some lss => exact foldl_pushSeg_bbox lss acc
    | none =>
      cases ls with
      | some l => exact pushSeg_bbox acc l
      | none => rfl

theorem foldl_processPlacemark_bbox (doc : List Placemark) (acc : ParseAcc) :
    (doc.foldl processPlacemark acc).bbox =
      (docPoints doc).foldl (fun bb p => updateBBox bb p.1 p.2) acc.bbox := by
  induction doc generalizing acc with
  | nil => rfl
  | cons pm t ih =>
    simp only [List.foldl_cons, docPoints_cons, List.foldl_append]
    rw [ih, processPlacemark_bbox]

theorem parse_bbox (doc : List Placemark) :
    (parse doc).bbox =
      (docPoints doc).foldl (fun bb p => updateBBox bb p.1 p.2) initBBox := by
  have h : (parse doc).bbox = (doc.foldl processPlacemark ⟨[], [], initBBox⟩).bbox := rfl
  rw [h, foldl_processPlacemark_bbox]

theorem parse_bbox_explicit (doc : List Placemark) :
    (parse doc).bbox =
      ⟨((docPoints doc).map Prod.fst).foldl min 90,
       ((docPoints doc).map Prod.fst).foldl max (-90),
       ((docPoints doc).map Prod.snd).foldl min 180,
       ((docPoints doc).map Prod.snd).foldl max (-180)⟩ := by
  rw [parse_bbox, bboxAddPts_eq]
  rfl

theorem pushSeg_pois (acc : ParseAcc) (seg : List P3) :
    (pushSeg acc seg).pois = acc.pois := by
  cases seg <;> rfl

theorem foldl_pushSeg_pois (lss : List (List P3)) (acc : ParseAcc) :
    (lss.foldl pushSeg acc).pois = acc.pois := by
  induction lss generalizing acc with
  | nil => rfl
  | cons ls t ih => simp only [List.foldl_cons, ih, pushSeg_pois]

theorem mem_pois_foldl (doc : List Placemark) (acc : ParseAcc) (poi : POI)
    (h : poi ∈ (doc.foldl processPlacemark acc).pois) :
    poi ∈ acc.pois ∨ (poi.lat, poi.lon) ∈ docPoints doc := by
  induction doc generalizing acc with
  | nil => exact Or.inl h
  | cons pm t ih =>
    simp only [List.foldl_cons] at h
    rcases ih (processPlacemark acc pm) h with hmem | hmem
    · unfold processPlacemark at hmem
      rcases pm with ⟨pt, mg, ls⟩
      cases pt with
      | some pp =>
        cases pp with
        | some q =>
          simp only [List.mem_append, List.mem_singleton] at hmem
          rcases hmem with hmem | rfl
          · exact Or.inl hmem
          · right
            rw [docPoints_cons]
            simp [pmPoints]
        | none => exact Or.inl hmem
      | none =>
        cases mg with
        | some lss => rw [foldl_pushSeg_pois] at hmem; exact Or.inl hmem
        | none =>
          cases ls with
          | some l => rw [pushSeg_pois] at hmem; exact Or.inl hmem
          | none => exact Or.inl hmem
    · right
      rw [docPoints_cons]
      exact List.mem_append_right _ hmem

theorem mem_segments_foldl_pushSeg (lss : List (List P3)) (acc : ParseAcc)
    (seg : List P3) (h : seg ∈ (lss.foldl pushSeg acc).segments) :
    seg ∈ acc.segments ∨ (seg ≠ [] ∧ seg ∈ lss) := by
  induction lss generalizing acc with
  | nil => exact Or.inl h
  | cons ls t ih =>
    simp only [List.foldl_cons] at h
    rcases ih (pushSeg acc ls) h with hmem | hmem
    · unfold pushSeg at hmem
      cases hls : ls with
      | nil => rw [hls] at hmem; exact Or.inl hmem
      | cons p tl =>
        rw [hls] at hmem
        simp only [List.mem_append, List.mem_singleton] at hmem
        rcases hmem with hmem | rfl
        · exact Or.inl hmem
        · exact Or.inr ⟨by simp, List.mem_cons_self _ _⟩
    · exact Or.inr ⟨hmem.1, List.mem_cons_of_mem _ hmem.2⟩

theorem mem_segments_foldl (doc : List Placemark) (acc : ParseAcc) (seg : List P3)
    (h : seg ∈ (doc.foldl processPlacemark acc).segments) :
    seg ∈ acc.segments ∨
      (seg ≠ [] ∧ ∀ p ∈ seg, (p.1, p.2.1) ∈ docPoints doc) := by
  induction doc generalizing acc with
  | nil => exact Or.inl h
  | cons pm t ih =>
    simp only [List.foldl_cons] at h
    rcases ih (processPlacemark acc pm) h with hmem | hmem
    · unfold processPlacemark at hmem
      rcases pm with ⟨pt, mg, ls⟩
      cases pt with
      | some pp =>
        cases pp with
        | some q => exact Or.inl hmem
        | none => exact Or.inl hmem
      | none =>
        cases mg with
        | some lss =>
          rcases mem_segments_foldl_pushSeg lss acc seg hmem with h2 | ⟨hne, hmem2⟩
          · exact Or.inl h2
          · refine Or.inr ⟨hne, fun p hp => ?_⟩
            rw [docPoints_cons]
            refine List.mem_append_left _ ?_
            simp only [pmPoints, List.mem_flatten, List.mem_map]
            exact ⟨seg.map fun q => (q.1, q.2.1), ⟨seg, hmem2, rfl⟩,
              List.mem_map_of_mem _ hp⟩
        | none =>
          cases ls with
          | some l =>
            unfold pushSeg at hmem
            cases hl : l with
            | nil => rw [hl] at hmem; exact Or.inl hmem
            | cons p tl =>
              rw [hl] at hmem
              simp only [List.mem_append, List.mem_singleton] at hmem
              rcases hmem with hmem | rfl
              · exact Or.inl hmem
              · refine Or.inr ⟨by simp, fun q hq => ?_⟩
                rw [docPoints_cons]
                refine List.mem_append_left _ ?_
                rw [← hl] at hq ⊢
                simp only [pmPoints]
                exact List.mem_map_of_mem _ hq
          | none => exact Or.inl hmem
    · refine Or.inr ⟨hmem.1, fun p hp => ?_⟩
      rw [docPoints_cons]
      exact List.mem_append_right _ (hmem.2 p hp)

/-! ### Projections of `parse` -/

theorem parse_pois (doc : List Placemark) :
    (parse doc).pois = (doc.foldl processPlacemark ⟨[], [], initBBox⟩).pois := rfl

theorem parse_segments (doc : List Placemark) :
    (parse doc).segments = (doc.foldl processPlacemark ⟨[], [], initBBox⟩).segments := rfl

theorem parse_track_km (doc : List Placemark) :
    (parse doc).stats.track_km =
      (if 0 < (parse doc).segments.foldl
          (fun t seg => (seg.zip seg.tail).foldl
            (fun t2 pq => t2 + haversineKm pq.1.1 pq.1.2.1 pq.2.1 pq.2.2.1) t) 0 then
        some (jround10 ((parse doc).segments.foldl
          (fun t seg => (seg.zip seg.tail).foldl
            (fun t2 pq => t2 + haversineKm pq.1.1 pq.1.2.1 pq.2.1 pq.2.2.1) t) 0))
      else none) := rfl

theorem parse_span_km (doc : List Placemark) :
    (parse doc).stats.span_km =
      (if (parse doc).bbox.minLat < 90 then
        some (jround10 (Real.sqrt
          (((parse doc).bbox.maxLat - (parse doc).bbox.minLat) * 111.32 *
            (((parse doc).bbox.maxLat - (parse doc).bbox.minLat) * 111.32) +
          ((parse doc).bbox.maxLon - (parse doc).bbox.minLon) * 111.32 *
            Real.cos (((parse doc).bbox.maxLat + (parse doc).bbox.minLat) / 2 * π / 180) *
            (((parse doc).bbox.maxLon - (parse doc).bbox.minLon) * 111.32 *
              Real.cos (((parse doc).bbox.maxLat + (parse doc).bbox.minLat) / 2 * π / 180)))))
      else none) := rfl

theorem parse_elev (doc : List Placemark) :
    (parse doc).stats.elevation_min_m = (calcElevationStats (parse doc).segments).elevation_min_m ∧
    (parse doc).stats.elevation_max_m = (calcElevationStats (parse doc).segments).elevation_max_m ∧
    (parse doc).stats.climb_m = (calcElevationStats (parse doc).segments).climb_m ∧
    (parse doc).stats.descent_m = (calcElevationStats (parse doc).segments).descent_m :=
  ⟨rfl, rfl, rfl, rfl⟩

theorem docPoint_bounds (doc : List Placemark) (pt : ℝ × ℝ) (h : pt ∈ docPoints doc) :
    (parse doc).bbox.minLat ≤ pt.1 ∧ pt.1 ≤ (parse doc).bbox.maxLat ∧
    (parse doc).bbox.minLon ≤ pt.2 ∧ pt.2 ≤ (parse doc).bbox.maxLon := by
  rw [parse_bbox_explicit]
  exact ⟨foldl_min_le_mem _ _ _ (List.mem_map_of_mem Prod.fst h),
    le_foldl_max_mem _ _ _ (List.mem_map_of_mem Prod.fst h),
    foldl_min_le_mem _ _ _ (List.mem_map_of_mem Prod.snd h),
    le_foldl_max_mem _ _ _ (List.mem_map_of_mem Prod.snd h)⟩

theorem parse_segments_sound (doc : List Placemark) (seg : List P3)
    (h : seg ∈ (parse doc).segments) :
    seg ≠ [] ∧ ∀ p ∈ seg, (p.1, p.2.1) ∈ docPoints doc := by
  rw [parse_segments] at h
  rcases mem_segments_foldl doc _ seg h with h2 | h2
  · cases h2
  · exact h2

/-- Claim C9: after a successful parse, every coordinate the parser accepted
lies inside the returned bounding box, both for segment points and POIs. -/
theorem parse_points_within_bbox (doc : List Placemark) :
    (∀ poi ∈ (parse doc).pois,
      (parse doc).bbox.minLat ≤ poi.lat ∧ poi.lat ≤ (parse doc).bbox.maxLat ∧
      (parse doc).bbox.minLon ≤ poi.lon ∧ poi.lon ≤ (parse doc).bbox.maxLon) ∧
    (∀ seg ∈ (parse doc).segments, ∀ p ∈ seg,
      (parse doc).bbox.minLat ≤ p.1 ∧ p.1 ≤ (parse doc).bbox.maxLat ∧
      (parse doc).bbox.minLon ≤ p.2.1 ∧ p.2.1 ≤ (parse doc).bbox.maxLon) := by
  constructor
  · intro poi hpoi
    rw [parse_pois] at hpoi
    rcases mem_pois_foldl doc _ poi hpoi with h | h
    · cases h
    · exact docPoint_bounds doc _ h
  · intro seg hseg p hp
    exact docPoint_bounds doc _ ((parse_segments_sound doc seg hseg).2 p hp)

/-- Witness for C9 at a concrete one-POI document. -/
theorem parse_points_within_bbox_witness :
    (⟨10, 20, 0⟩ : POI) ∈ (parse [⟨some (some ⟨10, 20, 0⟩), none, none⟩]).pois ∧
    ((parse [⟨some (some ⟨10, 20, 0⟩), none, none⟩]).bbox.minLat ≤ 10 ∧
      (10 : ℝ) ≤ (parse [⟨some (some ⟨10, 20, 0⟩), none, none⟩]).bbox.maxLat ∧
      (parse [⟨some (some ⟨10, 20, 0⟩), none, none⟩]).bbox.minLon ≤ 20 ∧
      (20 : ℝ) ≤ (parse [⟨some (some ⟨10, 20, 0⟩), none, none⟩]).bbox.maxLon) := by
  have hmem : (⟨10, 20, 0⟩ : POI) ∈ (parse [⟨some (some ⟨10, 20, 0⟩), none, none⟩]).pois := by
    rw [parse_pois]
    simp [processPlacemark]
  exact ⟨hmem, (parse_points_within_bbox [⟨some (some ⟨10, 20, 0⟩), none, none⟩]).1 _ hmem⟩

theorem parse_segments_nil_of_no_points (doc : List Placemark)
    (h : docPoints doc = []) : (parse doc).segments = [] := by
  rcases hs : (parse doc).segments with _ | ⟨seg, rest⟩
  · rfl
  · exfalso
    have hmem : seg ∈ (parse doc).segments := by rw [hs]; exact List.mem_cons_self _ _
    rcases parse_segments_sound doc seg hmem with ⟨hne, hpts⟩
    rcases List.exists_mem_of_ne_nil seg hne with ⟨p, hp⟩
    have := hpts p hp
    rw [h] at this
    cases this

theorem parse_min_lt_iff (doc : List Placemark) (c : ℝ) :
    (parse doc).bbox.minLat < c ↔ 90 < c ∨ ∃ pt ∈ docPoints doc, pt.1 < c := by
  rw [parse_bbox_explicit]
  show ((docPoints doc).map Prod.fst).foldl min 90 < c ↔ _
  rw [foldl_min_lt_iff]
  constructor
  · rintro (h | ⟨x, hx, hlt⟩)
    · exact Or.inl h
    · rcases List.mem_map.1 hx with ⟨pt, hpt, rfl⟩
      exact Or.inr ⟨pt, hpt, hlt⟩
  · rintro (h | ⟨pt, hpt, hlt⟩)
    · exact Or.inl h
    · exact Or.inr ⟨pt.1, List.mem_map_of_mem Prod.fst hpt, hlt⟩

/-- Claim C7: with no observed point the bbox stays at its degenerate
initialization and neither span_km nor any elevation key is emitted; and the
bbox is consistently ordered on both axes exactly when a point was observed. -/
theorem bbox_degenerate_iff (doc : List Placemark) :
    (docPoints doc = [] →
      (parse doc).bbox = initBBox ∧
      (parse doc).stats.span_km = none ∧
      (parse doc).stats.elevation_min_m = none ∧
      (parse doc).stats.elevation_max_m = none ∧
      (parse doc).stats.climb_m = none ∧
      (parse doc).stats.descent_m = none) ∧
    (((parse doc).bbox.minLat ≤ (parse doc).bbox.maxLat ∧
      (parse doc).bbox.minLon ≤ (parse doc).bbox.maxLon) ↔ docPoints doc ≠ []) := by
  constructor
  · intro h
    have hbb : (parse doc).bbox = initBBox := by
      rw [parse_bbox, h]
      rfl
    have hseg : (parse doc).segments = [] := parse_segments_nil_of_no_points doc h
    refine ⟨hbb, ?_, ?_, ?_, ?_, ?_⟩
    · rw [parse_span_km, if_neg]
      rw [hbb]
      show ¬(90 : ℝ) < 90
      norm_num
    · rw [(parse_elev doc).1, hseg]; rfl
    · rw [(parse_elev doc).2.1, hseg]; rfl
    · rw [(parse_elev doc).2.2.1, hseg]; rfl
    · rw [(parse_elev doc).2.2.2, hseg]; rfl
  · constructor
    · rintro ⟨hlat, _⟩ hnil
      have hbb : (parse doc).bbox = initBBox := by
        rw [parse_bbox, hnil]
        rfl
      rw [hbb] at hlat
      have : ¬((90 : ℝ) ≤ -90) := by norm_num
      exact this hlat
    · intro hne
      rcases List.exists_mem_of_ne_nil _ hne with ⟨pt, hpt⟩
      rcases docPoint_bounds doc pt hpt with ⟨h1, h2, h3, h4⟩
      exact ⟨h1.trans h2, h3.trans h4⟩

/-- Witness for C7 at the empty document. -/
theorem bbox_degenerate_iff_witness :
    (parse []).bbox = initBBox ∧ (parse []).stats.span_km = none ∧
    ¬((parse []).bbox.minLat ≤ (parse []).bbox.maxLat ∧
      (parse []).bbox.minLon ≤ (parse []).bbox.maxLon) := by
  have h := bbox_degenerate_iff []
  have hnil : docPoints [] = [] := rfl
  refine ⟨(h.1 hnil).1, (h.1 hnil).2.1, fun hc => ?_⟩
  exact (h.2.1 hc) hnil

/-- Counterexample to claim C4 as stated: a document with one POI at latitude
90 observes a point, yet span_km is omitted because the bbox guard
`minLat < 90` never fired. -/
theorem span_km_absent_at_pole :
    docPoints [⟨some (some ⟨90, 0, 0⟩), none, none⟩] ≠ [] ∧
    (parse [⟨some (some ⟨90, 0, 0⟩), none, none⟩]).stats.span_km = none := by
  have hdoc : docPoints [⟨some (some ⟨90, 0, 0⟩), none, none⟩] = [((90 : ℝ), (0 : ℝ))] := by
    simp [docPoints, pmPoints]
  constructor
  · rw [hdoc]
    simp
  · have h : ¬(parse [⟨some (some ⟨90, 0, 0⟩), none, none⟩]).bbox.minLat < 90 := by
      rw [parse_bbox_explicit]
      show ¬((docPoints [⟨some (some ⟨90, 0, 0⟩), none, none⟩]).map Prod.fst).foldl min 90 < 90
      rw [hdoc]
      simp
    rw [parse_span_km, if_neg h]

/-- Claim C4, amended: span_km is present iff some observed point has latitude
strictly below 90 (the code guards on `minLat < 90`, and a sole point at
latitude 90 or above leaves `minLat` at its sentinel); when present its value
is the rounded Euclidean norm of the projected bbox deltas. -/
theorem span_km_presence (doc : List Placemark) :
    ((parse doc).stats.span_km ≠ none ↔ ∃ pt ∈ docPoints doc, pt.1 < 90) ∧
    (parse doc).stats.span_km =
      (if (parse doc).bbox.minLat < 90 then
        some (jround10 (Real.sqrt
          (((parse doc).bbox.maxLat - (parse doc).bbox.minLat) * 111.32 *
            (((parse doc).bbox.maxLat - (parse doc).bbox.minLat) * 111.32) +
          ((parse doc).bbox.maxLon - (parse doc).bbox.minLon) * 111.32 *
            Real.cos (((parse doc).bbox.maxLat + (parse doc).bbox.minLat) / 2 * π / 180) *
            (((parse doc).bbox.maxLon - (parse doc).bbox.minLon) * 111.32 *
              Real.cos (((parse doc).bbox.maxLat + (parse doc).bbox.minLat) / 2 * π / 180)))))
      else none) := by
  refine ⟨?_, parse_span_km doc⟩
  have hiff := parse_min_lt_iff doc 90
  have h90 : ¬(90 : ℝ) < 90 := by norm_num
  by_cases h : (parse doc).bbox.minLat < 90
  · rw [parse_span_km, if_pos h]
    refine iff_of_true (Option.some_ne_none _) ?_
    rcases hiff.1 h with h' | hex
    · exact absurd h' h90
    · exact hex
  · rw [parse_span_km, if_neg h]
    exact iff_of_false (by simp) fun hex => h (hiff.2 (Or.inr hex))

theorem foldl_add_eq_add_sum {α : Type} (g : α → ℝ) (l : List α) (init : ℝ) :
    l.foldl (fun t x => t + g x) init = init + (l.map g).sum := by
  induction l generalizing init with
  | nil => simp
  | cons x t ih =>
    simp only [List.foldl_cons, List.map_cons, List.sum_cons]
    rw [ih]
    ring

theorem haversineKm_nonneg (a b c d : ℝ) : 0 ≤ haversineKm a b c d :=
  mul_nonneg (by norm_num) (Real.arcsin_nonneg.2 (Real.sqrt_nonneg _))

theorem totalTrackKm_nonneg (segs : List (List P3)) : 0 ≤ totalTrackKm segs := by
  refine List.sum_nonneg fun x hx => ?_
  rcases List.mem_map.1 hx with ⟨seg, _, rfl⟩
  refine List.sum_nonneg fun y hy => ?_
  rcases List.mem_map.1 hy with ⟨pq, _, rfl⟩
  exact haversineKm_nonneg _ _ _ _

theorem trackKm_foldl_eq (segs : List (List P3)) :
    segs.foldl (fun t seg => (seg.zip seg.tail).foldl
      (fun t2 pq => t2 + haversineKm pq.1.1 pq.1.2.1 pq.2.1 pq.2.2.1) t) 0 =
    totalTrackKm segs := by
  have hstep : ∀ (t : ℝ) (seg : List P3),
      (seg.zip seg.tail).foldl
        (fun t2 pq => t2 + haversineKm pq.1.1 pq.1.2.1 pq.2.1 pq.2.2.1) t =
      t + segHaversineSum seg :=
    fun t seg => foldl_add_eq_add_sum _ _ t
  calc segs.foldl (fun t seg => (seg.zip seg.tail).foldl
        (fun t2 pq => t2 + haversineKm pq.1.1 pq.1.2.1 pq.2.1 pq.2.2.1) t) 0
      = segs.foldl (fun t seg => t + segHaversineSum seg) 0 := by
        simp only [hstep]
    _ = 0 + (segs.map segHaversineSum).sum := foldl_add_eq_add_sum _ _ 0
    _ = totalTrackKm segs := by rw [totalTrackKm, zero_add]

/-- Claim C1: track_km is the rounded sum over all segments of consecutive
haversine distances, and the key is absent exactly when that sum is zero. -/
theorem track_km_spec (doc : List Placemark) :
    ((parse doc).stats.track_km =
      if 0 < totalTrackKm (parse doc).segments then
        some (jround10 (totalTrackKm (parse doc).segments))
      else none) ∧
    ((parse doc).stats.track_km = none ↔ totalTrackKm (parse doc).segments = 0) := by
  have heq : (parse doc).stats.track_km =
      if 0 < totalTrackKm (parse doc).segments then
        some (jround10 (totalTrackKm (parse doc).segments))
      else none := by
    rw [parse_track_km, trackKm_foldl_eq]
  refine ⟨heq, ?_⟩
  rw [heq]
  have hnn := totalTrackKm_nonneg (parse doc).segments
  split_ifs with h
  · refine iff_of_false (by simp) fun h0 => ?_
    rw [h0] at h
    exact lt_irrefl 0 h
  · exact iff_of_true rfl (le_antisymm (not_lt.1 h) hnn)

/-! ### Elevation smoothing lemmas -/

theorem sum_Icc_le_mul (a : ℕ → ℝ) (s e : ℕ) (M : ℝ)
    (h : ∀ j, s ≤ j → j ≤ e → a j ≤ M) :
    ∑ j ∈ Finset.Icc s e, a j ≤ ((e + 1 - s : ℕ) : ℝ) * M := by
  have hb := Finset.sum_le_card_nsmul (Finset.Icc s e) a M fun x hx =>
    h x (Finset.mem_Icc.1 hx).1 (Finset.mem_Icc.1 hx).2
  rwa [Nat.card_Icc, nsmul_eq_mul] at hb

theorem mul_le_sum_Icc (a : ℕ → ℝ) (s e : ℕ) (M : ℝ)
    (h : ∀ j, s ≤ j → j ≤ e → M ≤ a j) :
    ((e + 1 - s : ℕ) : ℝ) * M ≤ ∑ j ∈ Finset.Icc s e, a j := by
  have hb := Finset.card_nsmul_le_sum (Finset.Icc s e) a M fun x hx =>
    h x (Finset.mem_Icc.1 hx).1 (Finset.mem_Icc.1 hx).2
  rwa [Nat.card_Icc, nsmul_eq_mul] at hb

theorem avg_Icc_extend_one (a : ℕ → ℝ) (N s m : ℕ) (hsm : s ≤ m) (hmN : m + 1 ≤ N)
    (hmono : ∀ i j, i ≤ j → j ≤ N → a i ≤ a j) :
    (∑ j ∈ Finset.Icc s m, a j) / ((m - s + 1 : ℕ) : ℝ) ≤
    (∑ j ∈ Finset.Icc s (m + 1), a j) / ((m + 1 - s + 1 : ℕ) : ℝ) := by
  have hS : ∑ j ∈ Finset.Icc s m, a j ≤ ((m + 1 - s : ℕ) : ℝ) * a (m + 1) := by
    have := sum_Icc_le_mul a s m (a (m + 1)) fun j h1 h2 => hmono j (m + 1) (by omega) hmN
    rwa [show (m + 1 - s : ℕ) = (m + 1 - s : ℕ) from rfl] at this
  have hsum : ∑ j ∈ Finset.Icc s (m + 1), a j =
      (∑ j ∈ Finset.Icc s m, a j) + a (m + 1) :=
    Finset.sum_Icc_succ_top (by omega) a
  have hc1 : ((m - s + 1 : ℕ) : ℝ) = ((m + 1 - s : ℕ) : ℝ) := by
    congr 1
    omega
  have hc2 : ((m + 1 - s + 1 : ℕ) : ℝ) = ((m + 1 - s : ℕ) : ℝ) + 1 := by
    push_cast
    ring
  have hcpos : (0 : ℝ) < ((m + 1 - s : ℕ) : ℝ) := by
    have : 1 ≤ m + 1 - s := by omega
    exact_mod_cast Nat.lt_of_lt_of_le Nat.zero_lt_one this
  rw [hc1, hc2, hsum, div_le_div_iff hcpos (by linarith)]
  nlinarith [hS]

theorem avg_Icc_drop_one (a : ℕ → ℝ) (N s e : ℕ) (hse : s < e) (heN : e ≤ N)
    (hmono : ∀ i j, i ≤ j → j ≤ N → a i ≤ a j) :
    (∑ j ∈ Finset.Icc s e, a j) / ((e - s + 1 : ℕ) : ℝ) ≤
    (∑ j ∈ Finset.Icc (s + 1) e, a j) / ((e - (s + 1) + 1 : ℕ) : ℝ) := by
  have hsplit : ∑ j ∈ Finset.Icc s e, a j = a s + ∑ j ∈ Finset.Icc (s + 1) e, a j := by
    rw [Finset.Icc_eq_cons_Ioc (le_of_lt hse), Finset.sum_cons, ← Nat.Icc_succ_left]
  have hS : ((e - s : ℕ) : ℝ) * a s ≤ ∑ j ∈ Finset.Icc (s + 1) e, a j := by
    have := mul_le_sum_Icc a (s + 1) e (a s) fun j h1 h2 => hmono s j (by omega) (h2.trans heN)
    rwa [show (e + 1 - (s + 1) : ℕ) = (e - s : ℕ) from by omega] at this
  have hc1 : ((e - s + 1 : ℕ) : ℝ) = ((e - s : ℕ) : ℝ) + 1 := by
    push_cast
    ring
  have hc2 : ((e - (s + 1) + 1 : ℕ) : ℝ) = ((e - s : ℕ) : ℝ) := by
    congr 1
    omega
  have hcpos : (0 : ℝ) < ((e - s : ℕ) : ℝ) := by
    have : 1 ≤ e - s := by omega
    exact_mod_cast Nat.lt_of_lt_of_le Nat.zero_lt_one this
  rw [hsplit, hc1, hc2, div_le_div_iff (by linarith) hcpos]
  nlinarith [hS]

theorem avg_Icc_extend (a : ℕ → ℝ) (N s e e2 : ℕ) (hse : s ≤ e) (hee : e ≤ e2)
    (he2 : e2 ≤ N) (hmono : ∀ i j, i ≤ j → j ≤ N → a i ≤ a j) :
    (∑ j ∈ Finset.Icc s e, a j) / ((e - s + 1 : ℕ) : ℝ) ≤
    (∑ j ∈ Finset.Icc s e2, a j) / ((e2 - s + 1 : ℕ) : ℝ) := by
  revert he2
  induction e2, hee using Nat.le_induction with
  | base => intro _; exact le_rfl
  | succ m hm ih =>
    intro hm1N
    exact le_trans (ih (by omega))
      (avg_Icc_extend_one a N s m (hse.trans hm) hm1N hmono)

theorem avg_Icc_drop (a : ℕ → ℝ) (N s s2 e : ℕ) (hss : s ≤ s2) (hs2e : s2 ≤ e)
    (heN : e ≤ N) (hmono : ∀ i j, i ≤ j → j ≤ N → a i ≤ a j) :
    (∑ j ∈ Finset.Icc s e, a j) / ((e - s + 1 : ℕ) : ℝ) ≤
    (∑ j ∈ Finset.Icc s2 e, a j) / ((e - s2 + 1 : ℕ) : ℝ) := by
  revert hs2e
  induction s2, hss using Nat.le_induction with
  | base => intro _; exact le_rfl
  | succ m hm ih =>
    intro hm1e
    exact le_trans (ih (by omega)) (avg_Icc_drop_one a N m e (by omega) heN hmono)

theorem smoothedList_length (l : List ℝ) : (smoothedList l).length = l.length := by
  simp [smoothedList]

theorem smoothedList_get (l : List ℝ) (i : ℕ) (h : i < (smoothedList l).length) :
    (smoothedList l).get ⟨i, h⟩ =
      (∑ j ∈ Finset.Icc (i - HALF) (min (l.length - 1) (i + HALF)), l.getD j 0) /
        ((min (l.length - 1) (i + HALF) - (i - HALF) + 1 : ℕ) : ℝ) := by
  simp [smoothedList, List.get_eq_getElem]

theorem smoothed_chain_le (l : List ℝ)
    (hmono : ∀ i j, i ≤ j → j < l.length → l.getD i 0 ≤ l.getD j 0) :
    (smoothedList l).Chain' (· ≤ ·) := by
  rw [List.chain'_iff_get]
  intro i hi
  rw [smoothedList_get, smoothedList_get]
  have hi2 : i + 1 < l.length := by
    have := smoothedList_length l
    omega
  have hH : HALF = 2 := rfl
  have hmono2 : ∀ a b, a ≤ b → b ≤ l.length - 1 → l.getD a 0 ≤ l.getD b 0 :=
    fun a b hab hbN => hmono a b hab (by omega)
  calc (∑ j ∈ Finset.Icc (i - HALF) (min (l.length - 1) (i + HALF)), l.getD j 0) /
        ((min (l.length - 1) (i + HALF) - (i - HALF) + 1 : ℕ) : ℝ)
      ≤ (∑ j ∈ Finset.Icc (i - HALF) (min (l.length - 1) (i + 1 + HALF)), l.getD j 0) /
        ((min (l.length - 1) (i + 1 + HALF) - (i - HALF) + 1 : ℕ) : ℝ) := by
        exact avg_Icc_extend (fun j => l.getD j 0) (l.length - 1) (i - HALF)
          (min (l.length - 1) (i + HALF)) (min (l.length - 1) (i + 1 + HALF))
          (by omega) (by omega) (by omega) hmono2
    _ ≤ (∑ j ∈ Finset.Icc (i + 1 - HALF) (min (l.length - 1) (i + 1 + HALF)), l.getD j 0) /
        ((min (l.length - 1) (i + 1 + HALF) - (i + 1 - HALF) + 1 : ℕ) : ℝ) := by
        rcases Nat.lt_or_ge i HALF with hcase | hcase
        · have hs : i + 1 - HALF ≤ i - HALF + 1 := by omega
          rcases Nat.eq_or_lt_of_le hs with heq | _
          · rcases Nat.eq_zero_or_pos (i + 1 - HALF) with hz | hpos
            · rw [hz]
              have hzz : i - HALF = 0 := by omega
              rw [hzz]
            · exact avg_Icc_drop (fun j => l.getD j 0) (l.length - 1) (i - HALF)
                (i + 1 - HALF) (min (l.length - 1) (i + 1 + HALF))
                (by omega) (by omega) (by omega) hmono2
          · have hzz : i + 1 - HALF = i - HALF := by omega
            rw [hzz]
        · exact avg_Icc_drop (fun j => l.getD j 0) (l.length - 1) (i - HALF)
            (i + 1 - HALF) (min (l.length - 1) (i + 1 + HALF))
            (by omega) (by omega) (by omega) hmono2

theorem chain'_lt_getD_mono (l : List ℝ) (h : l.Chain' (· < ·)) :
    ∀ i j, i ≤ j → j < l.length → l.getD i 0 ≤ l.getD j 0 := by
  intro i j hij hj
  rcases eq_or_lt_of_le hij with rfl | hlt
  · exact le_rfl
  · have hp : l.Pairwise (· < ·) := List.chain'_iff_pairwise.1 h
    have hi : i < l.length := lt_trans hlt hj
    rw [List.getD_eq_get l 0 hi, List.getD_eq_get l 0 hj]
    exact le_of_lt (List.pairwise_iff_get.1 hp ⟨i, hi⟩ ⟨j, hj⟩ hlt)

theorem diffStep_fold (sm : List ℝ) :
    sm.Chain' (· ≤ ·) → ∀ c d : ℝ,
      ((sm.zip sm.tail).foldl diffStep (c, d)).2 = d ∧
      c ≤ ((sm.zip sm.tail).foldl diffStep (c, d)).1 := by
  induction sm with
  | nil => intro _ c d; exact ⟨rfl, le_rfl⟩
  | cons x t ih =>
    intro h c d
    cases t with
    | nil => exact ⟨rfl, le_rfl⟩
    | cons y t2 =>
      have hxy : x ≤ y := (List.chain'_cons.1 h).1
      have hch : (y :: t2).Chain' (· ≤ ·) := (List.chain'_cons.1 h).2
      simp only [List.tail_cons, List.zip_cons_cons, List.foldl_cons]
      by_cases hd : y - x > 0
      · have hstep : diffStep (c, d) (x, y) = (c + (y - x), d) := by
          simp [diffStep, hd]
        rw [hstep]
        rcases ih hch (c + (y - x)) d with ⟨h1, h2⟩
        exact ⟨h1, le_trans (by linarith) h2⟩
      · have hz : y - x = 0 := le_antisymm (not_lt.1 hd) (by linarith)
        have hstep : diffStep (c, d) (x, y) = (c, d) := by
          simp [diffStep, hd, hz]
        rw [hstep]
        exact ih hch c d

theorem jround_zero : jround 0 = 0 := by
  unfold jround
  rw [show (0 : ℝ) + 1 / 2 = 1 / 2 by norm_num]
  rw [Int.floor_eq_zero_iff]
  constructor <;> norm_num

theorem jround_nonneg (x : ℝ) (hx : 0 ≤ x) : 0 ≤ jround x := by
  unfold jround
  refine Int.le_floor.2 ?_
  push_cast
  linarith

/-- Claim C5, amended: for a single-segment route whose non-zero elevation
sequence is strictly increasing with at least two entries, the smoothed
sequence is monotone non-decreasing, so descent_m is exactly 0 and climb_m is
a non-negative integer.  (climb_m > 0 is not guaranteed: the total smoothed
rise can round to 0, see the counterexample.) -/
theorem calcElevationStats_single (seg : List P3)
    (h2 : 2 ≤ (nonZeroEles seg).length)
    (hchain : (nonZeroEles seg).Chain' (· < ·)) :
    (calcElevationStats [seg]).descent_m = some 0 ∧
    ∃ c : ℤ, (calcElevationStats [seg]).climb_m = some c ∧ 0 ≤ c := by
  have hmono := chain'_lt_getD_mono _ hchain
  have hsm : (smoothedList (nonZeroEles seg)).Chain' (· ≤ ·) :=
    smoothed_chain_le _ hmono
  have hfold := diffStep_fold _ hsm 0 0
  have hval : calcElevationStats [seg] =
      { elevation_min_m := ((nonZeroEles seg).foldl updMin none).map jround,
        elevation_max_m := ((nonZeroEles seg).foldl updMax none).map jround,
        climb_m := some (jround (((smoothedList (nonZeroEles seg)).zip
          (smoothedList (nonZeroEles seg)).tail).foldl diffStep (0, 0)).1),
        descent_m := some (jround (((smoothedList (nonZeroEles seg)).zip
          (smoothedList (nonZeroEles seg)).tail).foldl diffStep (0, 0)).2) } := by
    unfold calcElevationStats segElevStep
    simp only [List.foldl_cons, List.foldl_nil]
    rw [if_neg (show ¬(nonZeroEles seg).length < 2 by omega)]
    rfl
  rw [hval]
  exact ⟨by rw [hfold.1, jround_zero], ⟨_, rfl, jround_nonneg _ hfold.2⟩⟩

/-- Witness for amended C5 at the spec's example segment with elevations
`[0, 10, 20, 30, 40]` (the 0 entry is dropped by the truthiness filter). -/
theorem calcElevationStats_single_witness :
    (2 ≤ (nonZeroEles [((0:ℝ), (0:ℝ), (0:ℝ)), ((0:ℝ), (0:ℝ), (10:ℝ)),
        ((0:ℝ), (0:ℝ), (20:ℝ)), ((0:ℝ), (0:ℝ), (30:ℝ)), ((0:ℝ), (0:ℝ), (40:ℝ))]).length ∧
      (nonZeroEles [((0:ℝ), (0:ℝ), (0:ℝ)), ((0:ℝ), (0:ℝ), (10:ℝ)),
        ((0:ℝ), (0:ℝ), (20:ℝ)), ((0:ℝ), (0:ℝ), (30:ℝ)),
        ((0:ℝ), (0:ℝ), (40:ℝ))]).Chain' (· < ·)) ∧
    ((calcElevationStats [[((0:ℝ), (0:ℝ), (0:ℝ)), ((0:ℝ), (0:ℝ), (10:ℝ)),
        ((0:ℝ), (0:ℝ), (20:ℝ)), ((0:ℝ), (0:ℝ), (30:ℝ)),
        ((0:ℝ), (0:ℝ), (40:ℝ))]]).descent_m = some 0 ∧
      ∃ c : ℤ, (calcElevationStats [[((0:ℝ), (0:ℝ), (0:ℝ)), ((0:ℝ), (0:ℝ), (10:ℝ)),
        ((0:ℝ), (0:ℝ), (20:ℝ)), ((0:ℝ), (0:ℝ), (30:ℝ)),
        ((0:ℝ), (0:ℝ), (40:ℝ))]]).climb_m = some c ∧ 0 ≤ c) := by
  have he : nonZeroEles [((0:ℝ), (0:ℝ), (0:ℝ)), ((0:ℝ), (0:ℝ), (10:ℝ)),
      ((0:ℝ), (0:ℝ), (20:ℝ)), ((0:ℝ), (0:ℝ), (30:ℝ)), ((0:ℝ), (0:ℝ), (40:ℝ))] =
      [10, 20, 30, 40] := by
    norm_num [nonZeroEles]
  have h2 : 2 ≤ (nonZeroEles [((0:ℝ), (0:ℝ), (0:ℝ)), ((0:ℝ), (0:ℝ), (10:ℝ)),
      ((0:ℝ), (0:ℝ), (20:ℝ)), ((0:ℝ), (0:ℝ), (30:ℝ)),
      ((0:ℝ), (0:ℝ), (40:ℝ))]).length := by
    rw [he]
    norm_num
  have hch : (nonZeroEles [((0:ℝ), (0:ℝ), (0:ℝ)), ((0:ℝ), (0:ℝ), (10:ℝ)),
      ((0:ℝ), (0:ℝ), (20:ℝ)), ((0:ℝ), (0:ℝ), (30:ℝ)),
      ((0:ℝ), (0:ℝ), (40:ℝ))]).Chain' (· < ·) := by
    rw [he]
    norm_num [List.chain'_cons, List.chain'_singleton]
  exact ⟨⟨h2, hch⟩, calcElevationStats_single _ h2 hch⟩

theorem smoothedList_pair (a b : ℝ) :
    smoothedList [a, b] = [(a + b) / 2, (a + b) / 2] := by
  unfold smoothedList
  rw [show ([a, b] : List ℝ).length = 2 from rfl, show List.range 2 = [0, 1] by decide]
  simp only [List.map_cons, List.map_nil]
  have hH : HALF = 2 := rfl
  rw [hH]
  norm_num
  rw [show Finset.Icc 0 1 = ({0, 1} : Finset ℕ) by decide,
    Finset.sum_insert (by decide), Finset.sum_singleton]
  simp [List.getD]

/-- Counterexample to claim C5 as stated: the segment with non-zero elevation
sequence `[1, 2]` is strictly monotonically increasing, yet the smoothed
sequence is constant, so climb_m comes out 0 rather than positive. -/
theorem climb_positive_counterexample :
    2 ≤ (nonZeroEles [((0:ℝ), (0:ℝ), (1:ℝ)), ((0:ℝ), (0:ℝ), (2:ℝ))]).length ∧
    (nonZeroEles [((0:ℝ), (0:ℝ), (1:ℝ)), ((0:ℝ), (0:ℝ), (2:ℝ))]).Chain' (· < ·) ∧
    (calcElevationStats [[((0:ℝ), (0:ℝ), (1:ℝ)), ((0:ℝ), (0:ℝ), (2:ℝ))]]).climb_m =
      some 0 := by
  have he : nonZeroEles [((0:ℝ), (0:ℝ), (1:ℝ)), ((0:ℝ), (0:ℝ), (2:ℝ))] = [1, 2] := by
    norm_num [nonZeroEles]
  refine ⟨by rw [he]; norm_num, by rw [he]; norm_num [List.chain'_cons, List.chain'_singleton], ?_⟩
  have hfold : ((([(1:ℝ) + 2, (1:ℝ) + 2].map (· / 2)).zip
      (([(1:ℝ) + 2, (1:ℝ) + 2].map (· / 2)).tail)).foldl diffStep ((0:ℝ), (0:ℝ)))
      = ((0:ℝ), (0:ℝ)) := by
    simp only [List.map_cons, List.map_nil, List.tail_cons, List.zip_cons_cons,
      List.zip_nil_right, List.foldl_cons, List.foldl_nil]
    norm_num [diffStep]
  have hv : calcElevationStats [[((0:ℝ), (0:ℝ), (1:ℝ)), ((0:ℝ), (0:ℝ), (2:ℝ))]] =
      { elevation_min_m := (([1, 2] : List ℝ).foldl updMin none).map jround,
        elevation_max_m := (([1, 2] : List ℝ).foldl updMax none).map jround,
        climb_m := some (jround 0),
        descent_m := some (jround 0) } := by
    unfold calcElevationStats segElevStep
    simp only [List.foldl_cons, List.foldl_nil]
    rw [he]
    rw [if_neg (show ¬([1, 2] : List ℝ).length < 2 by norm_num)]
    rw [smoothedList_pair]
    have hzip : (([(1:ℝ) + 2, (1:ℝ) + 2].map (· / 2)).zip
        (([(1:ℝ) + 2, (1:ℝ) + 2].map (· / 2)).tail)).foldl diffStep ((0:ℝ), (0:ℝ))
        = ((0:ℝ), (0:ℝ)) := hfold
    simp only [List.map_cons, List.map_nil] at hzip
    rw [hzip]
    rfl
  rw [hv, jround_zero]

/-! ### Nearest-point locator lemmas -/

/-- Claim C10: on an empty flattened point list the locator returns
`{point: null, distance: Infinity}` and the derived on-route flag is false
for every query position. -/
theorem findNearestPoint_empty (lat lon : ℝ) :
    (findNearestPoint [] lat lon).point = none ∧
    (findNearestPoint [] lat lon).distance = ⊤ ∧
    ¬onRouteFlag [] lat lon := by
  have h : findNearestPoint [] lat lon = ⟨none, ⊤⟩ := rfl
  refine ⟨by rw [h], by rw [h], ?_⟩
  unfold onRouteFlag
  rw [h]
  exact not_top_lt

/-- On the equator the GPS haversine reduces to arc length along the parallel:
for query and point latitudes 0 the distance is the radius times the absolute
longitude difference in radians. -/
theorem haversine_equator (l1 l2 : ℝ) (h : |(l2 - l1) * π / 360| < π / 2) :
    haversine 0 l1 0 l2 = 6371000 * 2 * |(l2 - l1) * π / 360| := by
  simp only [haversine, atan2]
  have e1 : ((0 : ℝ) - 0) * π / 180 / 2 = 0 := by ring
  have e2 : (0 : ℝ) * π / 180 = 0 := by ring
  have e3 : (l2 - l1) * π / 180 / 2 = (l2 - l1) * π / 360 := by ring
  rw [e1, e2, e3, Real.sin_zero, Real.cos_zero]
  have ha : (0 : ℝ) * 0 + 1 * 1 * Real.sin ((l2 - l1) * π / 360) *
      Real.sin ((l2 - l1) * π / 360) = Real.sin ((l2 - l1) * π / 360) ^ 2 := by
    ring
  rw [ha]
  have habs := abs_lt.1 h
  have hcos : 0 < Real.cos ((l2 - l1) * π / 360) :=
    Real.cos_pos_of_mem_Ioo ⟨habs.1, habs.2⟩
  have hs1 : Real.sqrt (Real.sin ((l2 - l1) * π / 360) ^ 2) =
      |Real.sin ((l2 - l1) * π / 360)| := Real.sqrt_sq_eq_abs _
  have hs2 : Real.sqrt (1 - Real.sin ((l2 - l1) * π / 360) ^ 2) =
      Real.cos ((l2 - l1) * π / 360) := by
    rw [← Real.cos_sq', Real.sqrt_sq_eq_abs, abs_of_pos hcos]
  rw [hs1, hs2, if_pos hcos]
  have hsin : |Real.sin ((l2 - l1) * π / 360)| = Real.sin |(l2 - l1) * π / 360| := by
    rcases le_or_lt 0 ((l2 - l1) * π / 360) with hc | hc
    · rw [abs_of_nonneg hc, abs_of_nonneg
        (Real.sin_nonneg_of_nonneg_of_le_pi hc (by linarith [Real.pi_pos]))]
    · rw [abs_of_neg hc, Real.sin_neg,
        abs_of_nonpos (le_of_lt (Real.sin_neg_of_neg_of_neg_pi_lt hc
          (by linarith [Real.pi_pos])))]
  have hcosabs : Real.cos ((l2 - l1) * π / 360) = Real.cos |(l2 - l1) * π / 360| := by
    rw [Real.cos_abs]
  rw [hsin, hcosabs, ← Real.tan_eq_sin_div_cos,
    Real.arctan_tan (by linarith [abs_nonneg ((l2 - l1) * π / 360), Real.pi_pos]) h]

/-- Claim C6: for the route of 3 collinear points (0,0),(0,1),(0,2) and query
position (0, 1.0001) the locator returns the middle point, not an endpoint,
with a distance of about 11 meters (the exact offset arc, below 12 m). -/
theorem nearest_point_middle :
    (findNearestPoint [((0:ℝ), (0:ℝ), (0:ℝ)), ((0:ℝ), (1:ℝ), (0:ℝ)), ((0:ℝ), (2:ℝ), (0:ℝ))]
      0 1.0001).point = some ((0:ℝ), (1:ℝ), (0:ℝ)) ∧
    (findNearestPoint [((0:ℝ), (0:ℝ), (0:ℝ)), ((0:ℝ), (1:ℝ), (0:ℝ)), ((0:ℝ), (2:ℝ), (0:ℝ))]
      0 1.0001).distance < ((12 : ℝ) : EReal) := by
  have hpi := Real.pi_pos
  have habs0 : |((0:ℝ) - 1.0001) * π / 360| = 1.0001 * π / 360 := by
    rw [abs_div, abs_mul, abs_of_pos hpi,
      show (0:ℝ) - 1.0001 = -1.0001 by norm_num, abs_neg,
      abs_of_pos (show (0:ℝ) < 1.0001 by norm_num),
      abs_of_pos (show (0:ℝ) < 360 by norm_num)]
  have habs1 : |((1:ℝ) - 1.0001) * π / 360| = 0.0001 * π / 360 := by
    rw [abs_div, abs_mul, abs_of_pos hpi,
      show (1:ℝ) - 1.0001 = -0.0001 by norm_num, abs_neg,
      abs_of_pos (show (0:ℝ) < 0.0001 by norm_num),
      abs_of_pos (show (0:ℝ) < 360 by norm_num)]
  have habs2 : |((2:ℝ) - 1.0001) * π / 360| = 0.9999 * π / 360 := by
    rw [abs_div, abs_mul, abs_of_pos hpi,
      show (2:ℝ) - 1.0001 = 0.9999 by norm_num,
      abs_of_pos (show (0:ℝ) < 0.9999 by norm_num),
      abs_of_pos (show (0:ℝ) < 360 by norm_num)]
  have hd0 : haversine 0 1.0001 0 0 = 6371000 * 2 * (1.0001 * π / 360) := by
    rw [haversine_equator 1.0001 0 (by rw [habs0]; linarith), habs0]
  have hd1 : haversine 0 1.0001 0 1 = 6371000 * 2 * (0.0001 * π / 360) := by
    rw [haversine_equator 1.0001 1 (by rw [habs1]; linarith), habs1]
  have hd2 : haversine 0 1.0001 0 2 = 6371000 * 2 * (0.9999 * π / 360) := by
    rw [haversine_equator 1.0001 2 (by rw [habs2]; linarith), habs2]
  have hlt10 : haversine 0 1.0001 0 1 < haversine 0 1.0001 0 0 := by
    rw [hd0, hd1]
    linarith
  have hle12 : haversine 0 1.0001 0 1 ≤ haversine 0 1.0001 0 2 := by
    rw [hd1, hd2]
    linarith
  have hlt12m : haversine 0 1.0001 0 1 < 12 := by
    rw [hd1]
    linarith [Real.pi_lt_315]
  have e0 : scanStep 0 1.0001
      [((0:ℝ), (0:ℝ), (0:ℝ)), ((0:ℝ), (1:ℝ), (0:ℝ)), ((0:ℝ), (2:ℝ), (0:ℝ))]
      ((⊤ : EReal), (none : Option P3)) 0 =
      (((haversine 0 1.0001 0 0 : ℝ) : EReal), some ((0:ℝ), (0:ℝ), (0:ℝ))) := by
    simp only [scanStep, List.getD_cons_zero]
    rw [if_pos (EReal.coe_lt_top _)]
  have e1 : scanStep 0 1.0001
      [((0:ℝ), (0:ℝ), (0:ℝ)), ((0:ℝ), (1:ℝ), (0:ℝ)), ((0:ℝ), (2:ℝ), (0:ℝ))]
      (((haversine 0 1.0001 0 0 : ℝ) : EReal), some ((0:ℝ), (0:ℝ), (0:ℝ))) 1 =
      (((haversine 0 1.0001 0 1 : ℝ) : EReal), some ((0:ℝ), (1:ℝ), (0:ℝ))) := by
    simp only [scanStep, List.getD_cons_succ, List.getD_cons_zero]
    rw [if_pos (EReal.coe_lt_coe_iff.2 hlt10)]
  have e2 : scanStep 0 1.0001
      [((0:ℝ), (0:ℝ), (0:ℝ)), ((0:ℝ), (1:ℝ), (0:ℝ)), ((0:ℝ), (2:ℝ), (0:ℝ))]
      (((haversine 0 1.0001 0 1 : ℝ) : EReal), some ((0:ℝ), (1:ℝ), (0:ℝ))) 2 =
      (((haversine 0 1.0001 0 1 : ℝ) : EReal), some ((0:ℝ), (1:ℝ), (0:ℝ))) := by
    simp only [scanStep, List.getD_cons_succ, List.getD_cons_zero]
    rw [if_neg (not_lt.2 (EReal.coe_le_coe_iff.2 hle12))]
  have e3 : scanStep 0 1.0001
      [((0:ℝ), (0:ℝ), (0:ℝ)), ((0:ℝ), (1:ℝ), (0:ℝ)), ((0:ℝ), (2:ℝ), (0:ℝ))]
      (((haversine 0 1.0001 0 1 : ℝ) : EReal), some ((0:ℝ), (1:ℝ), (0:ℝ))) 0 =
      (((haversine 0 1.0001 0 1 : ℝ) : EReal), some ((0:ℝ), (1:ℝ), (0:ℝ))) := by
    simp only [scanStep, List.getD_cons_zero]
    rw [if_neg (not_lt.2 (EReal.coe_le_coe_iff.2 (le_of_lt hlt10)))]
  have e4 : scanStep 0 1.0001
      [((0:ℝ), (0:ℝ), (0:ℝ)), ((0:ℝ), (1:ℝ), (0:ℝ)), ((0:ℝ), (2:ℝ), (0:ℝ))]
      (((haversine 0 1.0001 0 1 : ℝ) : EReal), some ((0:ℝ), (1:ℝ), (0:ℝ))) 1 =
      (((haversine 0 1.0001 0 1 : ℝ) : EReal), some ((0:ℝ), (1:ℝ), (0:ℝ))) := by
    simp only [scanStep, List.getD_cons_succ, List.getD_cons_zero]
    rw [if_neg (lt_irrefl _)]
  have hidx : List.indexOf ((0:ℝ), (1:ℝ), (0:ℝ))
      [((0:ℝ), (0:ℝ), (0:ℝ)), ((0:ℝ), (1:ℝ), (0:ℝ)), ((0:ℝ), (2:ℝ), (0:ℝ))] = 1 := by
    have hb0 : (((0:ℝ), (0:ℝ), (0:ℝ)) == ((0:ℝ), (1:ℝ), (0:ℝ))) = false := by
      rw [beq_eq_false_iff_ne]
      intro h
      rw [Prod.ext_iff, Prod.ext_iff] at h
      norm_num at h
    have hb1 : (((0:ℝ), (1:ℝ), (0:ℝ)) == ((0:ℝ), (1:ℝ), (0:ℝ))) = true := by
      rw [beq_iff_eq]
    show List.findIdx (· == ((0:ℝ), (1:ℝ), (0:ℝ)))
      [((0:ℝ), (0:ℝ), (0:ℝ)), ((0:ℝ), (1:ℝ), (0:ℝ)), ((0:ℝ), (2:ℝ), (0:ℝ))] = 1
    rw [List.findIdx_cons, List.findIdx_cons]
    simp only [hb0, hb1, cond_false, cond_true]
  have hmain : findNearestPoint
      [((0:ℝ), (0:ℝ), (0:ℝ)), ((0:ℝ), (1:ℝ), (0:ℝ)), ((0:ℝ), (2:ℝ), (0:ℝ))] 0 1.0001 =
      ⟨some ((0:ℝ), (1:ℝ), (0:ℝ)), ((haversine 0 1.0001 0 1 : ℝ) : EReal)⟩ := by
    simp only [findNearestPoint]
    rw [show strideIdxs
        ([((0:ℝ), (0:ℝ), (0:ℝ)), ((0:ℝ), (1:ℝ), (0:ℝ)), ((0:ℝ), (2:ℝ), (0:ℝ))] : List P3).length
        (max 1 (([((0:ℝ), (0:ℝ), (0:ℝ)), ((0:ℝ), (1:ℝ), (0:ℝ)),
          ((0:ℝ), (2:ℝ), (0:ℝ))] : List P3).length / 1000)) = [0, 1, 2] from by decide]
    simp only [List.foldl_cons, List.foldl_nil, e0, e1, e2]
    simp only [hidx]
    rw [show (List.range (min
        ([((0:ℝ), (0:ℝ), (0:ℝ)), ((0:ℝ), (1:ℝ), (0:ℝ)), ((0:ℝ), (2:ℝ), (0:ℝ))] : List P3).length
        (1 + max 1 (([((0:ℝ), (0:ℝ), (0:ℝ)), ((0:ℝ), (1:ℝ), (0:ℝ)),
          ((0:ℝ), (2:ℝ), (0:ℝ))] : List P3).length / 1000)) -
        (1 - max 1 (([((0:ℝ), (0:ℝ), (0:ℝ)), ((0:ℝ), (1:ℝ), (0:ℝ)),
          ((0:ℝ), (2:ℝ), (0:ℝ))] : List P3).length / 1000)))).map
        ((1 - max 1 (([((0:ℝ), (0:ℝ), (0:ℝ)), ((0:ℝ), (1:ℝ), (0:ℝ)),
          ((0:ℝ), (2:ℝ), (0:ℝ))] : List P3).length / 1000)) + ·) = [0, 1] from by decide]
    simp only [List.foldl_cons, List.foldl_nil, e3, e4]
  rw [hmain]
  exact ⟨rfl, EReal.coe_lt_coe_iff.2 hlt12m⟩

/-! ### Tile index lemmas -/

theorem mem_intRange (a b x : ℤ) : x ∈ intRange a b ↔ a ≤ x ∧ x ≤ b := by
  unfold intRange
  rw [List.mem_map]
  constructor
  · rintro ⟨k, hk, rfl⟩
    rw [List.mem_range, Int.lt_toNat] at hk
    omega
  · rintro ⟨h1, h2⟩
    refine ⟨(x - a).toNat, ?_, ?_⟩
    · rw [List.mem_range, Int.lt_toNat, Int.toNat_of_nonneg (by omega)]
      omega
    · rw [Int.toNat_of_nonneg (by omega)]
      ring

theorem mem_natRange (a b z : ℕ) : z ∈ natRange a b ↔ a ≤ z ∧ z ≤ b := by
  unfold natRange
  rw [List.mem_map]
  constructor
  · rintro ⟨k, hk, rfl⟩
    rw [List.mem_range] at hk
    omega
  · rintro ⟨h1, h2⟩
    refine ⟨z - a, ?_, by omega⟩
    rw [List.mem_range]
    omega

theorem mem_addKey (t : List TileKey) (k2 k : TileKey) :
    k ∈ addKey t k2 ↔ k ∈ t ∨ k = k2 := by
  unfold addKey
  split_ifs with h
  · constructor
    · exact Or.inl
    · rintro (h1 | rfl)
      · exact h1
      · exact h
  · simp [List.mem_append]

theorem nodup_addKey (t : List TileKey) (k : TileKey) (h : t.Nodup) :
    (addKey t k).Nodup := by
  unfold addKey
  split_ifs with hmem
  · exact h
  · rw [List.nodup_append]
    exact ⟨h, List.nodup_singleton _, by simpa using hmem⟩

theorem mem_foldl_addKey (ks : List TileKey) :
    ∀ (t : List TileKey) (k : TileKey), k ∈ ks.foldl addKey t ↔ k ∈ t ∨ k ∈ ks := by
  induction ks with
  | nil => intro t k; simp
  | cons a t2 ih =>
    intro t k
    simp only [List.foldl_cons]
    rw [ih, mem_addKey, List.mem_cons]
    tauto

theorem nodup_foldl_addKey (ks : List TileKey) :
    ∀ t : List TileKey, t.Nodup → (ks.foldl addKey t).Nodup := by
  induction ks with
  | nil => intro t h; exact h
  | cons a t2 ih =>
    intro t h
    exact ih _ (nodup_addKey _ _ h)

theorem seenAdd_foldl (ks : List TileKey) :
    ∀ st : List TileKey × List TileKey, st.2 ⊆ st.1 →
      (ks.foldl seenAdd st).2 ⊆ (ks.foldl seenAdd st).1 ∧
      (st.1.Nodup → (ks.foldl seenAdd st).1.Nodup) ∧
      ∀ k, k ∈ (ks.foldl seenAdd st).1 ↔ k ∈ st.1 ∨ k ∈ ks := by
  induction ks with
  | nil => intro st hsub; exact ⟨hsub, fun h => h, fun k => by simp⟩
  | cons a t ih =>
    intro st hsub
    simp only [List.foldl_cons]
    by_cases hmem : a ∈ st.2
    · have hstep : seenAdd st a = st := by simp [seenAdd, hmem]
      rw [hstep]
      rcases ih st hsub with ⟨h1, h2, h3⟩
      refine ⟨h1, h2, fun k => ?_⟩
      rw [h3 k, List.mem_cons]
      constructor
      · rintro (h | h)
        · exact Or.inl h
        · exact Or.inr (Or.inr h)
      · rintro (h | rfl | h)
        · exact Or.inl h
        · exact Or.inl (hsub hmem)
        · exact Or.inr h
    · have hstep : seenAdd st a = (addKey st.1 a, st.2 ++ [a]) := by simp [seenAdd, hmem]
      rw [hstep]
      have hsub2 : (st.2 ++ [a]) ⊆ addKey st.1 a := by
        intro x hx
        rcases List.mem_append.1 hx with hx | hx
        · exact (mem_addKey _ _ _).2 (Or.inl (hsub hx))
        · rw [List.mem_singleton] at hx
          exact (mem_addKey _ _ _).2 (Or.inr hx)
      rcases ih (addKey st.1 a, st.2 ++ [a]) hsub2 with ⟨h1, h2, h3⟩
      refine ⟨h1, fun hnd => h2 (nodup_addKey _ _ hnd), fun k => ?_⟩
      rw [h3 k, mem_addKey, List.mem_cons]
      tauto

attribute [irreducible] addKey seenAdd

theorem mem_blockKeys (z : ℕ) (cx cy : ℤ) (k : TileKey) :
    k ∈ blockKeys z cx cy ↔
      k.1 = (z : ℤ) ∧ cx - 1 ≤ k.2.1 ∧ k.2.1 ≤ cx + 1 ∧ cy - 1 ≤ k.2.2 ∧ k.2.2 ≤ cy + 1 := by
  rcases k with ⟨kz, kx, ky⟩
  simp only [blockKeys, List.mem_flatMap, List.mem_map, mem_intRange, Prod.mk.injEq]
  constructor
  · rintro ⟨dx, ⟨hdx1, hdx2⟩, dy, ⟨hdy1, hdy2⟩, rfl, rfl, rfl⟩
    refine ⟨rfl, by omega, by omega, by omega, by omega⟩
  · rintro ⟨rfl, h1, h2, h3, h4⟩
    exact ⟨kx - cx, ⟨by omega, by omega⟩, ky - cy, ⟨by omega, by omega⟩, rfl, by omega, by omega⟩

theorem mem_rectKeys (b : BBox) (z : ℕ) (k : TileKey) :
    k ∈ rectKeys b z ↔ specLowZoom b z k := by
  rcases k with ⟨kz, kx, ky⟩
  simp only [rectKeys, specLowZoom, List.mem_flatMap, List.mem_map, mem_intRange,
    Prod.mk.injEq]
  constructor
  · rintro ⟨x, ⟨hx1, hx2⟩, y, ⟨hy1, hy2⟩, rfl, rfl, rfl⟩
    exact ⟨rfl, hx1, hx2, hy1, hy2⟩
  · rintro ⟨rfl, h1, h2, h3, h4⟩
    exact ⟨kx, ⟨h1, h2⟩, ky, ⟨h3, h4⟩, rfl, rfl, rfl⟩

theorem mem_ptBlock (z : ℕ) (p : P3) (k : TileKey) :
    k ∈ ptBlock z p ↔ specBlock p.1 p.2.1 z k := by
  unfold ptBlock specBlock
  rw [mem_blockKeys]

theorem seenAdd_idxFold (f : ℕ → List TileKey) (idxs : List ℕ) :
    ∀ st : List TileKey × List TileKey, st.2 ⊆ st.1 →
      (idxs.foldl (fun s i => (f i).foldl seenAdd s) st).2 ⊆
        (idxs.foldl (fun s i => (f i).foldl seenAdd s) st).1 ∧
      (st.1.Nodup → (idxs.foldl (fun s i => (f i).foldl seenAdd s) st).1.Nodup) ∧
      ∀ k, k ∈ (idxs.foldl (fun s i => (f i).foldl seenAdd s) st).1 ↔
        k ∈ st.1 ∨ ∃ i ∈ idxs, k ∈ f i := by
  induction idxs with
  | nil => intro st hsub; exact ⟨hsub, fun h => h, fun k => by simp⟩
  | cons i t ih =>
    intro st hsub
    simp only [List.foldl_cons]
    rcases seenAdd_foldl (f i) st hsub with ⟨h1, h2, h3⟩
    rcases ih ((f i).foldl seenAdd st) h1 with ⟨g1, g2, g3⟩
    refine ⟨g1, fun hnd => g2 (h2 hnd), fun k => ?_⟩
    rw [g3 k, h3 k]
    simp only [List.mem_cons]
    constructor
    · rintro ((h | h) | ⟨j, hj, hk⟩)
      · exact Or.inl h
      · exact Or.inr ⟨i, Or.inl rfl, h⟩
      · exact Or.inr ⟨j, Or.inr hj, hk⟩
    · rintro (h | ⟨j, (rfl | hj), hk⟩)
      · exact Or.inl (Or.inl h)
      · exact Or.inl (Or.inr hk)
      · exact Or.inr ⟨j, hj, hk⟩

theorem segHighStep_pos_eq (z : ℕ) (seg : List P3) (st : List TileKey × List TileKey)
    (hlen : 0 < seg.length) :
    segHighStep z st seg =
      ((ptBlock z (seg.getD (seg.length - 1) (0, 0, 0))).foldl addKey
        ((strideIdxs seg.length (max 1 (seg.length / 500))).foldl
          (fun s i => (ptBlock z (seg.getD i (0, 0, 0))).foldl seenAdd s) st).1,
       ((strideIdxs seg.length (max 1 (seg.length / 500))).foldl
          (fun s i => (ptBlock z (seg.getD i (0, 0, 0))).foldl seenAdd s) st).2) := by
  simp only [segHighStep]
  rw [if_pos hlen]

theorem segHighStep_zero_eq (z : ℕ) (seg : List P3) (st : List TileKey × List TileKey)
    (hlen : ¬0 < seg.length) :
    segHighStep z st seg =
      (strideIdxs seg.length (max 1 (seg.length / 500))).foldl
        (fun s i => (ptBlock z (seg.getD i (0, 0, 0))).foldl seenAdd s) st := by
  simp only [segHighStep]
  rw [if_neg hlen]

theorem segHighStep_spec (z : ℕ) (seg : List P3) (st : List TileKey × List TileKey)
    (hsub : st.2 ⊆ st.1) :
    (segHighStep z st seg).2 ⊆ (segHighStep z st seg).1 ∧
    (st.1.Nodup → (segHighStep z st seg).1.Nodup) ∧
    ∀ k, k ∈ (segHighStep z st seg).1 ↔ k ∈ st.1 ∨
      (∃ i ∈ strideIdxs seg.length (max 1 (seg.length / 500)),
        k ∈ ptBlock z (seg.getD i (0, 0, 0))) ∨
      (0 < seg.length ∧ k ∈ ptBlock z (seg.getD (seg.length - 1) (0, 0, 0))) := by
  rcases seenAdd_idxFold (fun i => ptBlock z (seg.getD i (0, 0, 0)))
    (strideIdxs seg.length (max 1 (seg.length / 500))) st hsub with ⟨h1, h2, h3⟩
  revert h1 h2 h3
  rcases Nat.eq_zero_or_pos seg.length with hzero | hlen
  · rw [segHighStep_zero_eq z seg st (by omega)]
    generalize (strideIdxs seg.length (max 1 (seg.length / 500))).foldl
      (fun s i => (ptBlock z (seg.getD i (0, 0, 0))).foldl seenAdd s) st = G
    intro h1 h2 h3
    refine ⟨h1, h2, fun k => ?_⟩
    rw [h3 k]
    constructor
    · rintro (h | h)
      · exact Or.inl h
      · exact Or.inr (Or.inl h)
    · rintro (h | h | ⟨hc, _⟩)
      · exact Or.inl h
      · exact Or.inr h
      · omega
  · rw [segHighStep_pos_eq z seg st hlen]
    generalize (strideIdxs seg.length (max 1 (seg.length / 500))).foldl
      (fun s i => (ptBlock z (seg.getD i (0, 0, 0))).foldl seenAdd s) st = G
    intro h1 h2 h3
    refine ⟨?_, ?_, ?_⟩
    · intro x hx
      show x ∈ (ptBlock z (seg.getD (seg.length - 1) (0, 0, 0))).foldl addKey G.1
      rw [mem_foldl_addKey]
      exact Or.inl (h1 hx)
    · intro hnd
      exact nodup_foldl_addKey _ _ (h2 hnd)
    · intro k
      show k ∈ (ptBlock z (seg.getD (seg.length - 1) (0, 0, 0))).foldl addKey G.1 ↔ _
      rw [mem_foldl_addKey, h3 k]
      constructor
      · rintro ((h | h) | h)
        · exact Or.inl h
        · exact Or.inr (Or.inl h)
        · exact Or.inr (Or.inr ⟨hlen, h⟩)
      · rintro (h | h | ⟨_, h⟩)
        · exact Or.inl (Or.inl h)
        · exact Or.inl (Or.inr h)
        · exact Or.inr h

theorem segsFold_inv (z : ℕ) (segs : List (List P3)) :
    ∀ st : List TileKey × List TileKey, st.2 ⊆ st.1 →
      (segs.foldl (segHighStep z) st).2 ⊆ (segs.foldl (segHighStep z) st).1 ∧
      (st.1.Nodup → (segs.foldl (segHighStep z) st).1.Nodup) := by
  induction segs with
  | nil => intro st hsub; exact ⟨hsub, fun h => h⟩
  | cons seg t ih =>
    intro st hsub
    simp only [List.foldl_cons]
    rcases segHighStep_spec z seg st hsub with ⟨h1, h2, _⟩
    rcases ih (segHighStep z st seg) h1 with ⟨g1, g2⟩
    exact ⟨g1, fun hnd => g2 (h2 hnd)⟩

theorem nodup_getTilesForRoute (rd : RouteGeom) (zoomMin zoomMax : ℕ) :
    (getTilesForRoute rd zoomMin zoomMax).Nodup := by
  unfold getTilesForRoute
  have hlow : ∀ (zs : List ℕ) (t : List TileKey), t.Nodup →
      (zs.foldl (fun t2 z => (rectKeys rd.bbox z).foldl addKey t2) t).Nodup := by
    intro zs
    induction zs with
    | nil => intro t h; exact h
    | cons z t2 ih =>
      intro t h
      exact ih _ (nodup_foldl_addKey _ _ h)
  have hhigh : ∀ (zs : List ℕ) (t : List TileKey), t.Nodup →
      (zs.foldl (fun t2 z => (rd.segments.foldl (segHighStep z) (t2, [])).1) t).Nodup := by
    intro zs
    induction zs with
    | nil => intro t h; exact h
    | cons z t2 ih =>
      intro t h
      refine ih _ ?_
      exact (segsFold_inv z rd.segments (t, []) (by intro x hx; cases hx)).2 h
  exact hhigh _ _ (hlow _ _ List.nodup_nil)

theorem mem_tiles_single (lat lon ele : ℝ) (k : TileKey) :
    k ∈ getTilesForRoute (singlePointRoute lat lon ele) 10 16 ↔
      (∃ z : ℕ, 10 ≤ z ∧ z ≤ 13 ∧ specLowZoom ⟨lat, lat, lon, lon⟩ z k) ∨
      (∃ z : ℕ, 14 ≤ z ∧ z ≤ 16 ∧ specBlock lat lon z k) := by
  have hseg : ∀ (z : ℕ) (t : List TileKey) (k2 : TileKey),
      k2 ∈ (segHighStep z (t, ([] : List TileKey)) [(lat, lon, ele)]).1 ↔
        k2 ∈ t ∨ specBlock lat lon z k2 := by
    intro z t k2
    rcases segHighStep_spec z [(lat, lon, ele)] (t, [])
      (by intro x hx; cases hx) with ⟨_, _, h3⟩
    rw [h3 k2]
    rw [show strideIdxs ([(lat, lon, ele)] : List P3).length
        (max 1 (([(lat, lon, ele)] : List P3).length / 500)) = [0] from by
      norm_num [strideIdxs]
      rw [show (1 : ℕ) = 0 + 1 from rfl, List.range_succ, List.range_zero]
      rfl]
    constructor
    · rintro (h | ⟨i, hi, h⟩ | ⟨_, h⟩)
      · exact Or.inl h
      · rw [List.mem_singleton] at hi
        subst hi
        exact Or.inr ((mem_ptBlock z (lat, lon, ele) k2).1 h)
      · exact Or.inr ((mem_ptBlock z (lat, lon, ele) k2).1 h)
    · rintro (h | h)
      · exact Or.inl h
      · exact Or.inr (Or.inl ⟨0, List.mem_singleton.2 rfl,
          (mem_ptBlock z (lat, lon, ele) k2).2 h⟩)
  unfold getTilesForRoute
  simp only [singlePointRoute]
  rw [show natRange 10 (min 13 16) = [10, 11, 12, 13] from by decide,
    show natRange (max 14 10) 16 = [14, 15, 16] from by decide]
  simp only [List.foldl_cons, List.foldl_nil]
  rw [hseg 16, hseg 15, hseg 14]
  rw [mem_foldl_addKey, mem_foldl_addKey, mem_foldl_addKey, mem_foldl_addKey]
  rw [mem_rectKeys, mem_rectKeys, mem_rectKeys, mem_rectKeys]
  simp only [List.not_mem_nil, false_or]
  constructor
  · rintro ((((((h | h) | h) | h) | h) | h) | h)
    · exact Or.inl ⟨10, by norm_num, by norm_num, h⟩
    · exact Or.inl ⟨11, by norm_num, by norm_num, h⟩
    · exact Or.inl ⟨12, by norm_num, by norm_num, h⟩
    · exact Or.inl ⟨13, by norm_num, by norm_num, h⟩
    · exact Or.inr ⟨14, by norm_num, by norm_num, h⟩
    · exact Or.inr ⟨15, by norm_num, by norm_num, h⟩
    · exact Or.inr ⟨16, by norm_num, by norm_num, h⟩
  · rintro (⟨z, hz1, hz2, hs⟩ | ⟨z, hz1, hz2, hs⟩)
    · interval_cases z <;> tauto
    · interval_cases z <;> tauto

/-- Claim C3: for a single-point route, getTilesForRoute(route, 10, 16)
returns, without duplicates, exactly the union of the expanded-bbox tile
rectangles at zooms 10 through 13 and the 3-by-3 blocks centered on the
point's tile at zooms 14 through 16. -/
theorem tiles_single_point_spec (lat lon ele : ℝ) :
    (getTilesForRoute (singlePointRoute lat lon ele) 10 16).Nodup ∧
    ∀ k : TileKey, k ∈ getTilesForRoute (singlePointRoute lat lon ele) 10 16 ↔
      (∃ z : ℕ, 10 ≤ z ∧ z ≤ 13 ∧ specLowZoom ⟨lat, lat, lon, lon⟩ z k) ∨
      (∃ z : ℕ, 14 ≤ z ∧ z ≤ 16 ∧ specBlock lat lon z k) :=
  ⟨nodup_getTilesForRoute _ _ _, fun k => mem_tiles_single lat lon ele k⟩

/-! ### Download orchestrator lemmas -/

theorem checkTiles_ok {κ : Type} (aborted : ℕ → Bool) (isCached : κ → Bool) :
    ∀ (keys : List κ) (t cached : ℕ) (toDL : List κ) (cached2 : ℕ) (toDL2 : List κ),
      checkTiles aborted isCached keys t cached toDL = .inr (cached2, toDL2) →
      cached2 + toDL2.length = cached + toDL.length + keys.length := by
  intro keys
  induction keys with
  | nil =>
    intro t cached toDL c2 t2 h
    simp only [checkTiles, Sum.inr.injEq, Prod.mk.injEq] at h
    rcases h with ⟨rfl, rfl⟩
    simp
  | cons k ks ih =>
    intro t cached toDL c2 t2 h
    simp only [checkTiles] at h
    by_cases h1 : aborted t = true
    · rw [if_pos h1] at h
      exact Sum.noConfusion h
    · rw [if_neg h1] at h
      by_cases h2 : isCached k = true
      · rw [if_pos h2] at h
        have := ih (t + 1) (cached + 1) toDL c2 t2 h
        simp only [List.length_cons] at this ⊢
        omega
      · rw [if_neg h2] at h
        have := ih (t + 1) cached (toDL ++ [k]) c2 t2 h
        rw [List.length_append] at this
        simp only [List.length_cons, List.length_nil] at this ⊢
        omega

theorem workLoop_counts {κ : Type} (aborted : ℕ → Bool) (fetchOk : κ → Bool)
    (qTotal cached : ℕ) :
    ∀ (q : List κ) (w : WorkState),
      aborted (workLoop aborted fetchOk qTotal cached q w).t = false →
      (workLoop aborted fetchOk qTotal cached q w).completed +
        (workLoop aborted fetchOk qTotal cached q w).failed =
        w.completed + w.failed + q.length := by
  intro q
  induction q with
  | nil =>
    intro w h
    simp [workLoop]
  | cons k ks ih =>
    intro w h
    by_cases hab : aborted w.t = true
    · have hres : workLoop aborted fetchOk qTotal cached (k :: ks) w = w := by
        simp [workLoop, hab]
      rw [hres] at h
      rw [h] at hab
      cases hab
    · have hab2 : aborted w.t = false := by
        revert hab
        cases aborted w.t <;> simp
      by_cases hf : fetchOk k = true
      · have hres : workLoop aborted fetchOk qTotal cached (k :: ks) w =
            workLoop aborted fetchOk qTotal cached ks
              ⟨w.completed + 1, w.failed, w.t + 1, w.events ++
                [⟨Phase.downloading, qTotal, w.completed + 1, w.failed, cached, none⟩]⟩ := by
          simp [workLoop, hab2, hf]
        rw [hres] at h ⊢
        have := ih _ h
        simp only [List.length_cons] at this ⊢
        omega
      · have hf2 : fetchOk k = false := by
          revert hf
          cases fetchOk k <;> simp
        have hres : workLoop aborted fetchOk qTotal cached (k :: ks) w =
            workLoop aborted fetchOk qTotal cached ks
              ⟨w.completed, w.failed + 1, w.t + 1, w.events ++
                [⟨Phase.downloading, qTotal, w.completed, w.failed + 1, cached, none⟩]⟩ := by
          simp [workLoop, hab2, hf2]
        rw [hres] at h ⊢
        have := ih _ h
        simp only [List.length_cons] at this ⊢
        omega

theorem workLoop_events {κ : Type} (aborted : ℕ → Bool) (fetchOk : κ → Bool)
    (qTotal cached : ℕ) :
    ∀ (q : List κ) (w : WorkState),
      ∀ e ∈ (workLoop aborted fetchOk qTotal cached q w).events,
        e ∈ w.events ∨ e.phase = Phase.downloading := by
  intro q
  induction q with
  | nil =>
    intro w e he
    exact Or.inl he
  | cons k ks ih =>
    intro w e he
    by_cases hab : aborted w.t = true
    · rw [show workLoop aborted fetchOk qTotal cached (k :: ks) w = w from by
        simp [workLoop, hab]] at he
      exact Or.inl he
    · have hab2 : aborted w.t = false := by
        revert hab
        cases aborted w.t <;> simp
      by_cases hf : fetchOk k = true
      · rw [show workLoop aborted fetchOk qTotal cached (k :: ks) w =
            workLoop aborted fetchOk qTotal cached ks
              ⟨w.completed + 1, w.failed, w.t + 1, w.events ++
                [⟨Phase.downloading, qTotal, w.completed + 1, w.failed, cached, none⟩]⟩ from by
          simp [workLoop, hab2, hf]] at he
        rcases ih _ e he with hmem | hph
        · rcases List.mem_append.1 hmem with hmem | hmem
          · exact Or.inl hmem
          · rw [List.mem_singleton] at hmem
            subst hmem
            exact Or.inr rfl
        · exact Or.inr hph
      · have hf2 : fetchOk k = false := by
          revert hf
          cases fetchOk k <;> simp
        rw [show workLoop aborted fetchOk qTotal cached (k :: ks) w =
            workLoop aborted fetchOk qTotal cached ks
              ⟨w.completed, w.failed + 1, w.t + 1, w.events ++
                [⟨Phase.downloading, qTotal, w.completed, w.failed + 1, cached, none⟩]⟩ from by
          simp [workLoop, hab2, hf2]] at he
        rcases ih _ e he with hmem | hph
        · rcases List.mem_append.1 hmem with hmem | hmem
          · exact Or.inl hmem
          · rw [List.mem_singleton] at hmem
            subst hmem
            exact Or.inr rfl
        · exact Or.inr hph

/-- Claim C2, amended: onProgress receives exactly one `done` event when the
invocation reaches the downloading phase (empty queue, full run, or
cancellation during downloading) — but zero `done` events when cancellation is
requested during the checking phase, where the source returns early without a
final snapshot. -/
theorem downloadTiles_done_events (rd : RouteGeom) (zoomMin zoomMax : ℕ)
    (isCached fetchOk : TileKey → Bool) (aborted : ℕ → Bool) :
    doneCount (downloadTiles rd zoomMin zoomMax isCached fetchOk aborted).1 =
      (if checkingAborted (getTilesForRoute rd zoomMin zoomMax) isCached aborted = true
        then 0 else 1) := by
  unfold downloadTiles downloadTilesFromKeys checkingAborted
  rcases hct : checkTiles aborted isCached (getTilesForRoute rd zoomMin zoomMax) 0 0 []
    with cached | ⟨cached, toDL⟩
  · simp [doneCount]
  · rcases toDL with _ | ⟨q, qs⟩
    · simp [doneCount]
    · have hev := workLoop_events aborted fetchOk (q :: qs).length cached (q :: qs)
        ⟨0, 0, (getTilesForRoute rd zoomMin zoomMax).length, []⟩
      dsimp only
      simp only [doneCount, List.countP_append, List.countP_cons, List.countP_nil]
      have hzero : (workLoop aborted fetchOk (q :: qs).length cached (q :: qs)
          ⟨0, 0, (getTilesForRoute rd zoomMin zoomMax).length, []⟩).events.countP
          (fun e => decide (e.phase = Phase.done)) = 0 := by
        rw [List.countP_eq_zero]
        intro e he
        rcases hev e he with hmem | hph
        · cases hmem
        · simp [hph]
      rw [hzero]
      simp

/-- Counterexample to claim C2 as stated: when cancellation is already
requested as the checking phase starts (non-empty tile set), downloadTiles
returns cancelled with no `done` progress event at all. -/
theorem downloadTiles_checkingAbort_noDone :
    doneCount (downloadTiles (singlePointRoute 0 0 0) 10 16 (fun _ => false)
      (fun _ => true) (fun _ => true)).1 = 0 ∧
    (downloadTiles (singlePointRoute 0 0 0) 10 16 (fun _ => false)
      (fun _ => true) (fun _ => true)).2.cancelled = true := by
  have hne : getTilesForRoute (singlePointRoute 0 0 0) 10 16 ≠ [] := by
    intro h
    have hk := (mem_tiles_single 0 0 0 (((14 : ℕ) : ℤ), lon2tile 0 14, lat2tile 0 14)).2
      (Or.inr ⟨14, by norm_num, by norm_num, rfl, by dsimp only; omega, by dsimp only; omega,
        by dsimp only; omega, by dsimp only; omega⟩)
    rw [h] at hk
    cases hk
  rcases List.exists_cons_of_ne_nil hne with ⟨k, rest, heq⟩
  unfold downloadTiles downloadTilesFromKeys
  rw [heq]
  have hct : checkTiles (fun _ => true) (fun _ => false) (k :: rest) 0 0 [] =
      Sum.inl 0 := by
    simp [checkTiles]
  rw [hct]
  exact ⟨rfl, rfl⟩

/-- Claim C8: whenever downloadTiles returns with cancelled = false the
counters satisfy completed + failed + cached = total, where total is the size
of the duplicate-free tile-key set computed for the route (the counters are
naturals, hence non-negative by construction). -/
theorem download_counts_conservation (rd : RouteGeom) (zoomMin zoomMax : ℕ)
    (isCached fetchOk : TileKey → Bool) (aborted : ℕ → Bool) :
    ((downloadTiles rd zoomMin zoomMax isCached fetchOk aborted).2.cancelled = false →
      (downloadTiles rd zoomMin zoomMax isCached fetchOk aborted).2.completed +
        (downloadTiles rd zoomMin zoomMax isCached fetchOk aborted).2.failed +
        (downloadTiles rd zoomMin zoomMax isCached fetchOk aborted).2.cached =
        (downloadTiles rd zoomMin zoomMax isCached fetchOk aborted).2.total) ∧
    (downloadTiles rd zoomMin zoomMax isCached fetchOk aborted).2.total =
      (getTilesForRoute rd zoomMin zoomMax).length ∧
    (getTilesForRoute rd zoomMin zoomMax).Nodup := by
  refine ⟨?_, ?_⟩
  · unfold downloadTiles downloadTilesFromKeys
    rcases hct : checkTiles aborted isCached (getTilesForRoute rd zoomMin zoomMax) 0 0 []
      with cached | ⟨cached, toDL⟩
    · intro h
      cases h
    · rcases toDL with _ | ⟨q, qs⟩
      · intro _
        have hsum := checkTiles_ok aborted isCached (getTilesForRoute rd zoomMin zoomMax)
          0 0 [] cached [] hct
        dsimp only
        simp only [List.length_nil] at hsum
        omega
      · intro h
        dsimp only at h ⊢
        have hw := workLoop_counts aborted fetchOk (q :: qs).length cached (q :: qs)
          ⟨0, 0, (getTilesForRoute rd zoomMin zoomMax).length, []⟩ h
        have hsum := checkTiles_ok aborted isCached (getTilesForRoute rd zoomMin zoomMax)
          0 0 [] cached (q :: qs) hct
        simp only [List.length_nil] at hsum
        dsimp only at hw
        omega
  · constructor
    · unfold downloadTiles downloadTilesFromKeys
      rcases hct : checkTiles aborted isCached (getTilesForRoute rd zoomMin zoomMax) 0 0 []
        with cached | ⟨cached, toDL⟩
      · rfl
      · rcases toDL with _ | ⟨q, qs⟩
        · rfl
        · rfl
    · exact nodup_getTilesForRoute rd zoomMin zoomMax

/-- Witness for C8 at a run that completes uncancelled (empty zoom range, so
the tile set is empty and the empty-queue path returns cancelled = false). -/
theorem download_counts_conservation_witness :
    (downloadTiles ⟨[], ⟨0, 0, 0, 0⟩⟩ 14 13 (fun _ => true) (fun _ => true)
      (fun _ => false)).2.cancelled = false ∧
    (downloadTiles ⟨[], ⟨0, 0, 0, 0⟩⟩ 14 13 (fun _ => true) (fun _ => true)
      (fun _ => false)).2.completed +
      (downloadTiles ⟨[], ⟨0, 0, 0, 0⟩⟩ 14 13 (fun _ => true) (fun _ => true)
        (fun _ => false)).2.failed +
      (downloadTiles ⟨[], ⟨0, 0, 0, 0⟩⟩ 14 13 (fun _ => true) (fun _ => true)
        (fun _ => false)).2.cached =
      (downloadTiles ⟨[], ⟨0, 0, 0, 0⟩⟩ 14 13 (fun _ => true) (fun _ => true)
        (fun _ => false)).2.total :=
  ⟨rfl, (download_counts_conservation ⟨[], ⟨0, 0, 0, 0⟩⟩ 14 13 (fun _ => true)
    (fun _ => true) (fun _ => false)).1 rfl⟩
